import Mathlib

/-!
Verification development for the `context_models` repository.

The repository's algorithmic core lives in `src/context_models/mappings/__init__.py`
(the tree transformer `apply`/`update`, `filt`, `sort_by_keys_pattern`, `replace`,
`replace_pattern`, `sync`) and in `src/context_models/__init__.py` (the context
resolution functions `ContextBase.context_get`, `ContextStore.context_get`,
`ContextStore.context_get_data`).

Python dictionaries are modelled as association lists `List (String × α)` with
unique keys (uniqueness is the `keysNodup`/WF side condition, an invariant every
real Python dict satisfies); `dGet`/`dSet`/`dDel`/`dContains` mirror `d[k]`,
`d[k] = v` (overwrite in place, append when fresh, preserving insertion order),
`del d[k]` and `k in d`.  Trees (`Node`/`Leaf` in the source's vocabulary) are the
inductive `Tree`; leaf values are opaque terminal values modelled as `Int`.
Python's deep, order-insensitive dict equality `==` is `pyEq`.

For the claims about object identity and in-place mutation (which value
semantics cannot express) there is additionally a heap embedding further below:
objects live at addresses, `copy` is a fresh allocation, and the transformer is
re-expressed as explicit state passing over the heap.
-/

namespace ContextModels

/-! ## Association-list dictionary primitives (Python `dict` semantics) -/

/-- `m.get k` / `m[k]`: value at the first (for a real dict: only) binding of `k`. -/
def dGet (m : List (String × α)) (k : String) : Option α :=
  match m with
  | [] => none
  | (k1, v1) :: rest => if k1 = k then some v1 else dGet rest k

/-- `k in m`. -/
def dContains (m : List (String × α)) (k : String) : Bool :=
  match m with
  | [] => false
  | (k1, _) :: rest => k1 = k || dContains rest k

/-- `m[k] = v`: overwrite the existing binding in place, else append (insertion
order preserved, as for a Python dict). -/
def dSet (m : List (String × α)) (k : String) (v : α) : List (String × α) :=
  match m with
  | [] => [(k, v)]
  | (k1, v1) :: rest => if k1 = k then (k1, v) :: rest else (k1, v1) :: dSet rest k v

/-- `del m[k]`: remove the binding of `k` (order of the rest preserved). -/
def dDel (m : List (String × α)) (k : String) : List (String × α) :=
  match m with
  | [] => []
  | (k1, v1) :: rest => if k1 = k then rest else (k1, v1) :: dDel rest k

/-- Keys of the dict are pairwise distinct (always true of a Python dict). -/
def keysNodup (m : List (String × α)) : Bool :=
  match m with
  | [] => true
  | (k1, _) :: rest => !dContains rest k1 && keysNodup rest

/-- Python dict union `{**a, **b}`: keys of `a` in order, values overridden by
`b` on collision, then the keys of `b` absent from `a`, in order. -/
def dunion (a b : List (String × α)) : List (String × α) :=
  a.map (fun p => (p.1, (dGet b p.1).getD p.2)) ++ b.filter (fun p => !dContains a p.1)

/-! ## Trees

`Node`: associative container; `Leaf`: opaque terminal value (`Int` here). -/

inductive Tree where
  | leaf : Int → Tree
  | node : List (String × Tree) → Tree

mutual

/-- Python deep equality `==` on trees: dict equality is order-insensitive
(same key set, recursively equal values at each key). -/
def pyEq : Tree → Tree → Bool
  | .leaf a, .leaf b => a = b
  | .node a, .node b => pyEqSub a b && b.all (fun p => dContains a p.1)
  | _, _ => false

/-- Every entry of `a` has a binding in `b` that is recursively `pyEq` to it. -/
def pyEqSub : List (String × Tree) → List (String × Tree) → Bool
  | [], _ => true
  | (k, v) :: rest, b =>
    (match dGet b k with
     | some w => pyEq v w
     | none => false)
    && pyEqSub rest b

end

mutual

/-- The two trees have the same key set at every level: at each node, each
side's keys all occur on the other side, and the values at shared keys agree
recursively; a node never stands opposite a leaf. -/
def keysEqDeep : Tree → Tree → Bool
  | .leaf _, .leaf _ => true
  | .node a, .node b =>
    a.all (fun p => dContains b p.1) && b.all (fun p => dContains a p.1) &&
    keysEqDeepSub a b
  | _, _ => false

/-- Each entry of `a` whose key is bound in `b` has `keysEqDeep` values. -/
def keysEqDeepSub : List (String × Tree) → List (String × Tree) → Bool
  | [], _ => true
  | (k, v) :: rest, b =>
    (match dGet b k with
     | some w => keysEqDeep v w
     | none => true)
    && keysEqDeepSub rest b

end

mutual

/-- Well-formedness of a tree as Python data: every node's keys are distinct. -/
def Tree.WF : Tree → Bool
  | .leaf _ => true
  | .node es => keysNodup es && wfList es

/-- Well-formedness of a node's entry list. -/
def wfList : List (String × Tree) → Bool
  | [] => true
  | (_, v) :: rest => v.WF && wfList rest

end

/-! ## `sync` (mappings/__init__.py lines 164-181)

```
def sync(reference, target):
    synced = copy(target)
    for key in [k for k in synced if k not in reference]:
        del synced[key]
    for key in reference:
        if key in synced:
            if reference[key] == synced[key]:
                continue
            if isinstance(reference[key], Mapping) and isinstance(synced[key], MutableMapping):
                synced[key] = sync(reference[key], synced[key])
                continue
        synced[key] = reference[key]
    return synced
```
The recursive call only ever receives two mappings, so the embedding recurses on
node entry lists; `sync` on a leaf reference is never reached from a tree root
(the source would raise a `TypeError` on `k not in reference`) and is modelled
as returning the reference. -/

mutual

def sync : Tree → Tree → Tree
  | .node ref, .node tgt =>
    .node (syncLoop ref (tgt.filter (fun p => dContains ref p.1)))
  | r, _ => r

/-- The `for key in reference` loop, iterating over the reference's entries
(unique keys, so `reference[key]` is the entry's own value) while threading the
`synced` dict. -/
def syncLoop : List (String × Tree) → List (String × Tree) → List (String × Tree)
  | [], synced => synced
  | (k, rv) :: rest, synced =>
    match dGet synced k with
    | some sv =>
      if pyEq rv sv then syncLoop rest synced
      else
        match rv, sv with
        | .node _, .node _ => syncLoop rest (dSet synced k (sync rv sv))
        | _, _ => syncLoop rest (dSet synced k rv)
    | none => syncLoop rest (dSet synced k rv)

end

/-! ## The tree transformer `update`/`apply` (mappings/__init__.py lines 11-102),
value semantics

The hooks record mirrors `update`'s keyword parameters with their defaults.
`node_fun_pre` must return a mapping (its result is recursed into; anything else
raises in the source), so it is typed node-to-node.  `node_fun`'s result is only
stored, so it may be any value.  Because `node_fun_pre` is an arbitrary
function, recursion into its output is not structurally decreasing; the
embedding therefore takes explicit fuel and returns `none` when the nesting
exceeds it (the source would recurse exactly as deep). -/

structure Hooks where
  skipKey : String → Bool
  nodeFunPre : List (String × Tree) → List (String × Tree)
  skipNode : List (String × Tree) → Bool
  delNodePre : List (String × Tree) → Bool
  nodeFun : List (String × Tree) → Tree
  delNode : Tree → Bool
  leafFunPre : Tree → Tree
  skipLeaf : Tree → Bool
  delLeafPre : Tree → Bool
  leafFun : Tree → Tree
  delLeaf : Tree → Bool

/-- The defaults of `update`'s keyword parameters: identity functions and
constantly-false predicates (`node_fun`'s default returns the mapping itself,
i.e. the node). -/
def defaultHooks : Hooks :=
  ⟨fun _ => false, fun n => n, fun _ => false, fun _ => false, Tree.node,
   fun _ => false, fun v => v, fun _ => false, fun _ => false, fun v => v,
   fun _ => false⟩

/-- The deferred-deletion epilogue of one pass (`for mark in marks: del
mapping[mark]`): given the processed entries paired with their deletion marks,
delete the marked keys in the order they were marked. -/
def applyMarks (pass : List ((String × Tree) × Bool)) : List (String × Tree) :=
  ((pass.filter (fun e => e.2)).map (fun e => e.1.1)).foldl
    (fun acc k => dDel acc k) (pass.map (fun e => e.1))

/-- One pass of `update`'s `for key, value in mapping.items()` loop: each entry
is processed in order, producing the value finally stored at its key together
with a flag telling whether the key was appended to `marks`.  (During the loop
the source only ever rewrites the value of the entry being processed, so
iterating the original entry list is the dict's live iteration.) -/
def updatePassF (fuel : Nat) (hk : Hooks) :
    List (String × Tree) → Option (List ((String × Tree) × Bool))
  | [] => some []
  | (k, v) :: rest =>
    if hk.skipKey k then
      (updatePassF fuel hk rest).map (fun tl => ((k, v), false) :: tl)
    else
      match v with
      | .leaf p =>
        let l1 := hk.leafFunPre (.leaf p)
        if hk.skipLeaf l1 then
          (updatePassF fuel hk rest).map (fun tl => ((k, l1), false) :: tl)
        else if hk.delLeafPre l1 then
          (updatePassF fuel hk rest).map (fun tl => ((k, l1), true) :: tl)
        else
          (updatePassF fuel hk rest).map
            (fun tl => ((k, hk.leafFun l1), hk.delLeaf l1) :: tl)
      | .node n =>
        let n1 := hk.nodeFunPre n
        if hk.skipNode n1 then
          (updatePassF fuel hk rest).map (fun tl => ((k, .node n1), false) :: tl)
        else if hk.delNodePre n1 then
          (updatePassF fuel hk rest).map (fun tl => ((k, .node n1), true) :: tl)
        else
          if hfz : fuel = 0 then none
          else
            (updatePassF (fuel - 1) hk n1).bind fun passInner =>
              let v2 := hk.nodeFun (applyMarks passInner)
              (updatePassF fuel hk rest).map
                (fun tl => ((k, v2), hk.delNode v2) :: tl)
  termination_by es => (fuel, es.length)
  decreasing_by
  all_goals simp only [List.length_cons]
  all_goals first
    | exact Prod.Lex.left _ _ (by omega)
    | exact Prod.Lex.right _ (by omega)

/-- `update(mapping, **hooks)` on a node's entries: run the pass, then delete
the marked keys. -/
def updateF (fuel : Nat) (hk : Hooks) (es : List (String × Tree)) :
    Option (List (String × Tree)) :=
  (updatePassF fuel hk es).map applyMarks

/-- Value-level shallow `copy`: the identity on values (the heap embedding
below captures what `copy` does to object identity). -/
def pycopy (v : α) : α := v

/-- `apply(mapping, **hooks)`: `update` on `dict(copy(mapping))` with the two
pre-visit hooks wrapped so they receive a `copy` of their argument. -/
def applyF (fuel : Nat) (hk : Hooks) (es : List (String × Tree)) :
    Option (List (String × Tree)) :=
  updateF fuel
    ⟨hk.skipKey, fun n => hk.nodeFunPre (pycopy n), hk.skipNode, hk.delNodePre,
     hk.nodeFun, hk.delNode, fun v => hk.leafFunPre (pycopy v), hk.skipLeaf,
     hk.delLeafPre, hk.leafFun, hk.delLeaf⟩
    (pycopy es)

/-! ## `is_falsey` and `filt` (mappings/__init__.py lines 105-112) -/

/-- `is_falsey(v)`: Python falsiness of a tree value — an empty dict or the
zero leaf (array-valued leaves, whose truthiness is `v.any()`, are outside the
leaf model). -/
def is_falsey : Tree → Bool
  | .leaf p => p = 0
  | .node es => es.isEmpty

/-- The hook set of `filt`: `update`'s defaults with `del_node = is_falsey`
and `del_leaf = is_falsey`. -/
def filtHooks : Hooks :=
  ⟨fun _ => false, fun n => n, fun _ => false, fun _ => false, Tree.node,
   is_falsey, fun v => v, fun _ => false, fun _ => false, fun v => v,
   is_falsey⟩

/-- `filt(mapping) = apply(mapping, del_node=is_falsey, del_leaf=is_falsey)`. -/
def filtF (fuel : Nat) (es : List (String × Tree)) : Option (List (String × Tree)) :=
  applyF fuel filtHooks es

/-! ## `sort_by_keys_pattern` (mappings/__init__.py lines 115-130)

The compiled regular expression is abstracted as a function from a key to the
optional list of captured group strings (`pattern.search(key)` followed by
`[match[g] for g in groups]`); `apply_to_match` maps those strings to the sort
key.  `message.format(key=key)` is modelled by substituting the offending key
for the literal `\x7bkey\x7d` placeholder. -/

/-- The placeholder braces (written via code points to keep the source plain). -/
def lbrace : Char := Char.ofNat 123

def rbrace : Char := Char.ofNat 125

/-- Replace every occurrence of the placeholder in the message characters with
the key characters (left to right, non-overlapping, as `str.format` does). -/
def pyFormatKeyAux (key : List Char) : List Char → List Char
  | c0 :: c1 :: c2 :: c3 :: c4 :: rest =>
    if c0 = lbrace && c1 = 'k' && c2 = 'e' && c3 = 'y' && c4 = rbrace then
      key ++ pyFormatKeyAux key rest
    else
      c0 :: pyFormatKeyAux key (c1 :: c2 :: c3 :: c4 :: rest)
  | c :: rest => c :: pyFormatKeyAux key rest
  | [] => []

/-- `message.format(key=key)`: replace every `key` placeholder in the message
with the key. -/
def pyFormatKey (message k : String) : String :=
  ⟨pyFormatKeyAux k.data message.data⟩

/-- The default `message` argument of `sort_by_keys_pattern`. -/
def sortDefaultMessage : String := "Match not found when sorting."

/-- Stable insertion of `x` into `l`, before the first element whose sort key
exceeds `x`'s (so elements with equal keys keep their relative order). -/
def sortInsert (key : α → Int) (x : α) : List α → List α
  | [] => [x]
  | y :: ys => if key y < key x then y :: sortInsert key x ys else x :: y :: ys

/-- `sorted(items, key=...)`: a stable sort by the sort key. -/
def sortedBy (key : α → Int) : List α → List α
  | [] => []
  | x :: xs => sortInsert key x (sortedBy key xs)

/-- `sort_by_keys_pattern(mapping, pattern, groups, apply_to_match, message)`:
raise `ValueError(message.format(key=key))` at the first key the pattern does
not match (`sorted` evaluates `get_key` on every item, in order), otherwise
return the entries stably sorted by the transformed captures. -/
def sort_by_keys_pattern (m : List (String × α)) (pat : String → Option (List String))
    (applyToMatch : List String → Int) (message : String) :
    Except String (List (String × α)) :=
  match m.find? (fun p => (pat p.1).isNone) with
  | some p => .error (pyFormatKey message p.1)
  | none =>
    .ok (sortedBy (fun p => ((pat p.1).map applyToMatch).getD 0) m)

/-! ## `Repl`, `replace` and `replace_pattern` (mappings/__init__.py lines 133-161)

`replace` and `replace_pattern` run the identical loop
`for r in repls: mapping[r.dst] = substitute(mapping[r.src], r.find, r.repl)`
and differ only in the substitution primitive (`str.replace` vs `re.sub`),
which is abstracted as the `subst` parameter.  The in-place mutation of the
caller's mapping is explicit state passing: the function returns the final
state of the caller's mapping together with either the snapshot `dict(mapping)`
or the key of the `KeyError` raised by `mapping[r.src]`, in which case the
loop stops and the mapping keeps every earlier write. -/

structure Repl where
  src : String
  dst : String
  find : String
  repl : String

/-- The shared loop of `replace`/`replace_pattern`.  Returns the caller's
mapping as mutated so far, and `.ok` the returned snapshot or `.error` the
missing source key. -/
def replaceLoop (subst : String → String → String → String) :
    List Repl → List (String × String) →
    List (String × String) × Except String (List (String × String))
  | [], m => (m, .ok m)
  | r :: rs, m =>
    match dGet m r.src with
    | none => (m, .error r.src)
    | some s => replaceLoop subst rs (dSet m r.dst (subst s r.find r.repl))

/-! ## Heap embedding of `update`/`apply`

Value semantics cannot express the source's copy-on-visit and in-place
mutation, so the transformer is embedded a second time over an explicit heap:
Python objects (dicts and leaf objects) live at addresses, a dict holds
addresses of its values, `copy` is the allocation of a fresh object, and
`mapping[key] = v` mutates the dict object in place.  Hooks are restricted to
pure observations: the key predicates take the key, leaf predicates take the
leaf's payload, and the two leaf rewriting hooks either return their argument
object itself (`hid`, the default `lambda v: v`) or build a fresh leaf object
from the payload (`payload f`, e.g. `lambda v: v + 1`); the node hooks are kept
at their defaults (identity, constantly false).  `apply`'s wrapping of the two
pre-visit hooks with `copy` is the `copying` flag. -/

abbrev Addr := Nat

inductive Obj where
  | node : List (String × Addr) → Obj
  | leaf : Int → Obj
deriving DecidableEq

/-- Assoc-list get for `Nat`-keyed stores. -/
def hGet (m : List (Addr × Obj)) (a : Addr) : Option Obj :=
  match m with
  | [] => none
  | (a1, o1) :: rest => if a1 = a then some o1 else hGet rest a

/-- Assoc-list set (overwrite in place, append when fresh). -/
def hSet (m : List (Addr × Obj)) (a : Addr) (o : Obj) : List (Addr × Obj) :=
  match m with
  | [] => [(a, o)]
  | (a1, o1) :: rest => if a1 = a then (a1, o) :: rest else (a1, o1) :: hSet rest a o

/-- Assoc-list set for `String`-keyed dicts of addresses. -/
def eSet (m : List (String × Addr)) (k : String) (a : Addr) : List (String × Addr) :=
  match m with
  | [] => [(k, a)]
  | (k1, a1) :: rest => if k1 = k then (k1, a) :: rest else (k1, a1) :: eSet rest k a

/-- Assoc-list delete for `String`-keyed dicts of addresses. -/
def eDel (m : List (String × Addr)) (k : String) : List (String × Addr) :=
  match m with
  | [] => []
  | (k1, a1) :: rest => if k1 = k then rest else (k1, a1) :: eDel rest k

/-- Assoc-list get for `String`-keyed dicts of addresses. -/
def eGet (m : List (String × Addr)) (k : String) : Option Addr :=
  match m with
  | [] => none
  | (k1, a1) :: rest => if k1 = k then some a1 else eGet rest k

/-- Nodup check for `String`-keyed dicts of addresses. -/
def eKeysNodup (m : List (String × Addr)) : Bool :=
  match m with
  | [] => true
  | (k1, _) :: rest => !(rest.any (fun p => p.1 = k1)) && eKeysNodup rest

structure Heap where
  objs : List (Addr × Obj)
  next : Addr
deriving DecidableEq

def Heap.get (h : Heap) (a : Addr) : Option Obj := hGet h.objs a

def Heap.set (h : Heap) (a : Addr) (o : Obj) : Heap := ⟨hSet h.objs a o, h.next⟩

/-- Allocate a fresh object (what `copy` does). -/
def Heap.alloc (h : Heap) (o : Obj) : Heap × Addr :=
  (⟨h.objs ++ [(h.next, o)], h.next + 1⟩, h.next)

/-- The heap-level leaf hooks: identity (default) or a fresh leaf built from
the payload. -/
inductive LeafHookH where
  | hid
  | payload (f : Int → Int)

/-- Run a heap leaf hook on the leaf object at `a` with payload `p`; returns
the heap, the address of the hook's result, and its payload. -/
def runLeafHookH : LeafHookH → Heap → Addr → Int → Heap × Addr × Int
  | .hid, h, a, p => (h, a, p)
  | .payload f, h, _, p =>
    let (h1, a1) := h.alloc (.leaf (f p))
    (h1, a1, f p)

structure HooksH where
  skipKey : String → Bool
  leafFunPre : LeafHookH
  skipLeaf : Int → Bool
  delLeafPre : Int → Bool
  leafFun : LeafHookH
  delLeaf : Int → Bool

/-- All-defaults heap hooks. -/
def defaultHooksH : HooksH :=
  ⟨fun _ => false, .hid, fun _ => false, fun _ => false, .hid, fun _ => false⟩

/-- `mapping[key] = a` on the dict object at `m`. -/
def heapSetEntry (h : Heap) (m : Addr) (k : String) (a : Addr) : Heap :=
  match h.get m with
  | some (.node es) => h.set m (.node (eSet es k a))
  | _ => h

/-- The deferred-deletion epilogue on the dict object at `m`. -/
def delMarksH (h : Heap) (m : Addr) (marks : List String) : Heap :=
  match h.get m with
  | some (.node es) => h.set m (.node (marks.foldl (fun es k => eDel es k) es))
  | _ => h

mutual

/-- `update` on the dict object at `m`, mutating it in place and returning the
heap (the source returns `mapping`, i.e. the same address `m`).  `copying`
selects `apply`'s copy-wrapped pre-visit hooks.  Fuel bounds the recursion
depth; on exhaustion the heap is returned unchanged (the source recurses as
deep as the data, which the theorems' read hypotheses bound). -/
def updateH : Nat → Bool → HooksH → Heap → Addr → Heap
  | 0, _, _, h, _ => h
  | fuel + 1, copying, hk, h, m =>
    match h.get m with
    | some (.node es) =>
      let r := updateEntriesH fuel copying hk h m es []
      delMarksH r.1 m r.2
    | _ => h

/-- The `for key, value in mapping.items()` loop of `update` over the dict
object at `m` (iterating the entry list as it was when the loop started; the
loop body only rebinds the value of the entry being processed). -/
def updateEntriesH : Nat → Bool → HooksH → Heap → Addr → List (String × Addr) →
    List String → Heap × List String
  | _, _, _, h, _, [], marks => (h, marks)
  | fuel, copying, hk, h, m, (k, c) :: rest, marks =>
    if hk.skipKey k then updateEntriesH fuel copying hk h m rest marks
    else
      match h.get c with
      | some (.node ces) =>
        -- node path: `mapping[key] = node = node_fun_pre(node)` (with `copy`
        -- when invoked through `apply`), then recursion, then the default
        -- `node_fun` stores the same mapping back; `skip_node`,
        -- `del_node_pre` and `del_node` are at their constantly-false
        -- defaults.
        let hn := if copying then h.alloc (.node ces) else (h, c)
        let h2 := heapSetEntry hn.1 m k hn.2
        let h3 := updateH fuel copying hk h2 hn.2
        let h4 := heapSetEntry h3 m k hn.2
        updateEntriesH fuel copying hk h4 m rest marks
      | some (.leaf p) =>
        -- leaf path: `mapping[key] = leaf = leaf_fun_pre(leaf)` (on a fresh
        -- `copy` when invoked through `apply`), the three predicates observe
        -- that value (`del_leaf` observes it even after `leaf_fun` ran, since
        -- the source does not rebind `leaf` on line 96), and `leaf_fun`'s
        -- result is stored.
        let r1 :=
          if copying then
            runLeafHookH hk.leafFunPre (h.alloc (.leaf p)).1 (h.alloc (.leaf p)).2 p
          else runLeafHookH hk.leafFunPre h c p
        let h2 := heapSetEntry r1.1 m k r1.2.1
        if hk.skipLeaf r1.2.2 then updateEntriesH fuel copying hk h2 m rest marks
        else if hk.delLeafPre r1.2.2 then
          updateEntriesH fuel copying hk h2 m rest (marks ++ [k])
        else
          let r2 := runLeafHookH hk.leafFun h2 r1.2.1 r1.2.2
          let h4 := heapSetEntry r2.1 m k r2.2.1
          if hk.delLeaf r1.2.2 then
            updateEntriesH fuel copying hk h4 m rest (marks ++ [k])
          else updateEntriesH fuel copying hk h4 m rest marks
      | none => updateEntriesH fuel copying hk h m rest marks

end

/-- `apply` on the dict object at `m`: `update(dict(copy(mapping)), ...)` with
the copy-wrapped hooks — two fresh dicts are allocated (`copy(mapping)`, then
`dict(...)` of it) and the second is updated in place and returned. -/
def applyH (fuel : Nat) (hk : HooksH) (h : Heap) (m : Addr) : Heap × Addr :=
  match h.get m with
  | some (.node es) =>
    let h1 := (h.alloc (.node es)).1
    let r2 := h1.alloc (.node es)
    (updateH fuel true hk r2.1 r2.2, r2.2)
  | _ => (h, m)

mutual

/-- Read the tree value of the object at `a` (deep value, used to state
deep-equality of results); fuel bounds the depth. -/
def readTree : Nat → Heap → Addr → Option Tree
  | 0, _, _ => none
  | fuel + 1, h, a =>
    match h.get a with
    | some (.leaf p) => some (.leaf p)
    | some (.node es) => (readEntries fuel h es).map Tree.node
    | none => none
  termination_by fuel _ _ => (fuel, 0)

/-- Read the tree values of a dict object's entries. -/
def readEntries : Nat → Heap → List (String × Addr) → Option (List (String × Tree))
  | _, _, [] => some []
  | fuel, h, (k, c) :: rest =>
    match readTree fuel h c, readEntries fuel h rest with
    | some t, some ts => some ((k, t) :: ts)
    | _, _ => none
  termination_by fuel _ es => (fuel, 1 + es.length)

end

/-- Every allocated address is below `next` (true of any real heap). -/
def wfNextB (h : Heap) : Bool :=
  h.objs.all (fun p => decide (p.1 < h.next))

/-- Every dict object in the heap has unique keys (true of Python dicts). -/
def nodupAllB (h : Heap) : Bool :=
  h.objs.all (fun p =>
    match p.2 with
    | .node es => eKeysNodup es
    | .leaf _ => true)

/-- Every dict object's entry addresses are below the object's own address: an
explicit acyclicity witness, satisfied by loading any finite tree bottom-up
(children allocated before their parents, as Python literals are built). -/
def orderedB (h : Heap) : Bool :=
  h.objs.all (fun p =>
    match p.2 with
    | .node es => es.all (fun q => decide (q.2 < p.1))
    | .leaf _ => true)

/-- The heap facts preserved by every mapping operation: addresses below
`next` and unique keys in every dict object. -/
def heapInv (h : Heap) : Prop :=
  wfNextB h = true ∧ nodupAllB h = true

/-! ## Context resolution (src/context_models/__init__.py)

Raw input data values are nested dicts whose entries are further raw dicts,
already-constructed pydantic models (`BaseModel` instances, with the
`ContextStore` stored-context variant distinguished and carrying its `context`
attribute), or opaque leaves.  A context is itself a dict (modelled with
`PyVal` values so the same dict operations apply).  The temporary key
`_CONTEXT = "_context"` carries the context a *enclosing* node supplies to its
sub-trees (`context_get_data` writes it, `context_validate_before` pops it);
the key `CONTEXT = "context"` is the stored-context variant's own context field
as embedded in raw input data. -/

inductive PyVal where
  | model (isStore : Bool) (stored : List (String × PyVal))
  | pdict (entries : List (String × PyVal))
  | pint (v : Int)

abbrev Ctx := List (String × PyVal)

/-- `data.get(key, Context())` for a context-valued key: the entries of the
dict stored there, or the empty context. -/
def getCtx (m : List (String × PyVal)) (k : String) : Ctx :=
  match dGet m k with
  | some (.pdict c) => c
  | _ => []

/-- Python `context_base or deepcopy(cls.model_config[PLUGIN_SETTINGS][CONTEXT])`:
`or` falls through to the class default when `context_base` is `None` *or* an
empty (falsy) dict. -/
def pyOrCtx (contextBase : Option Ctx) (clsDefault : Ctx) : Ctx :=
  match contextBase with
  | some c => if c.isEmpty then clsDefault else c
  | none => clsDefault

/-- `ContextBase.context_get(data, context, context_base)` (lines 83-101):
the empty context for a constructed entity, else
`{**(context_base or default), **data.get(_CONTEXT, Context()), **(context or Context())}`.
A non-mapping, non-model `data` would raise in the source (no `.get`); the
embedding returns the empty context there (unreached). -/
def context_get (clsDefault : Ctx) (data : PyVal) (context : Option Ctx)
    (contextBase : Option Ctx) : Ctx :=
  match data with
  | .model _ _ => []
  | .pdict m =>
    dunion (dunion (pyOrCtx contextBase clsDefault) (getCtx m "_context"))
      ((context).getD [])
  | .pint _ => []

/-- `ContextStore.context_get(data, context, context_base)` (lines 517-537):
a `ContextStore` instance resolves to its own stored `context` attribute, any
other constructed model to the empty context, and raw data to
`{**(context_base or default), **data.get(_CONTEXT, Context()),
**data.get(CONTEXT, Context()), **(context or Context())}`. -/
def contextStore_get (clsDefault : Ctx) (data : PyVal) (context : Option Ctx)
    (contextBase : Option Ctx) : Ctx :=
  match data with
  | .model true stored => stored
  | .model false _ => []
  | .pdict m =>
    dunion
      (dunion (dunion (pyOrCtx contextBase clsDefault) (getCtx m "_context"))
        (getCtx m "context"))
      ((context).getD [])
  | .pint _ => []

/-- A node of the static context tree built by `get_context_tree`: the field's
declared default context and the child tree (the `config`/`plugins` slots play
no role in `context_get_data` beyond these two). -/
inductive CtxTreeNode where
  | mk (ctx : Ctx) (tree : List (String × CtxTreeNode))

def CtxTreeNode.ctx : CtxTreeNode → Ctx
  | .mk c _ => c

def CtxTreeNode.tree : CtxTreeNode → List (String × CtxTreeNode)
  | .mk _ t => t

/-- `data.get(field) or {}` classified: `some entries` when the loop recurses
into a raw mapping (absent or falsy values become `{}`), `none` when the value
is a constructed model and the loop `continue`s.  (A truthy non-mapping,
non-model value would raise in the source; modelled as `continue`, unreached
for model-shaped data.) -/
def innerDataOf : Option PyVal → Option (List (String × PyVal))
  | none => some []
  | some (.pdict es) => some es
  | some (.model _ _) => none
  | some (.pint v) => if v = 0 then some [] else none

mutual

/-- `ContextStore.context_get_data(data, tree, context)` (lines 559-574):
copy the data, then for each field of the static context tree rewrite the
field's raw sub-mapping recursively — the child's context is resolved by
`context_get` from the *current* data with the field's declared context as
`context_base` and this node's resolved `context` as the ancestor-supplied
context — and finally store the resolved context under `_CONTEXT`. -/
def context_get_data (clsDefault : Ctx) (data : List (String × PyVal))
    (tree : List (String × CtxTreeNode)) (context : Ctx) : List (String × PyVal) :=
  dSet (cgdFields clsDefault tree data context) "_context" (.pdict context)
  termination_by (sizeOf tree, 1)

/-- The `for field, node in tree.items()` loop, threading the mutated data. -/
def cgdFields (clsDefault : Ctx) : List (String × CtxTreeNode) →
    List (String × PyVal) → Ctx → List (String × PyVal)
  | [], data, _ => data
  | (f, .mk nctx ntree) :: rest, data, context =>
    match innerDataOf (dGet data f) with
    | none => cgdFields clsDefault rest data context
    | some inner =>
      let childCtx :=
        contextStore_get clsDefault (.pdict data) (some context) (some nctx)
      cgdFields clsDefault rest
        (dSet data f (.pdict (context_get_data clsDefault inner ntree childCtx)))
        context
  termination_by fields _ _ => (sizeOf fields, 0)

end

/-! # Theorems -/

/-! ## Dictionary primitive lemmas -/

theorem dGet_nil (k : String) : dGet ([] : List (String × α)) k = none := rfl

theorem dGet_cons (k1 k : String) (v1 : α) (rest) :
    dGet ((k1, v1) :: rest) k = if k1 = k then some v1 else dGet rest k := rfl

theorem dContains_eq_isSome (m : List (String × α)) (k : String) :
    dContains m k = (dGet m k).isSome := by
  induction m with
  | nil => rfl
  | cons p rest ih =>
    obtain ⟨k1, v1⟩ := p
    simp only [dContains, dGet]
    by_cases h : k1 = k <;> simp [h, ih]

theorem dContains_of_mem {m : List (String × α)} {k : String} {v : α}
    (h : (k, v) ∈ m) : dContains m k = true := by
  induction m with
  | nil => simp at h
  | cons p rest ih =>
    obtain ⟨k1, v1⟩ := p
    simp only [dContains, Bool.or_eq_true, decide_eq_true_eq]
    rcases List.mem_cons.mp h with h1 | h1
    · left; exact (Prod.mk.injEq .. ▸ h1).1.symm ▸ rfl
    · right; exact ih h1

theorem dGet_mem {m : List (String × α)} {k : String} {v : α}
    (h : dGet m k = some v) : (k, v) ∈ m := by
  induction m with
  | nil => simp [dGet] at h
  | cons p rest ih =>
    obtain ⟨k1, v1⟩ := p
    simp only [dGet] at h
    by_cases hk : k1 = k
    · simp [hk] at h
      exact List.mem_cons.mpr (Or.inl (by rw [hk, h]))
    · simp [hk] at h
      exact List.mem_cons.mpr (Or.inr (ih h))

theorem dGet_eq_of_mem_nodup {m : List (String × α)} {k : String} {v : α}
    (hn : keysNodup m = true) (h : (k, v) ∈ m) : dGet m k = some v := by
  induction m with
  | nil => simp at h
  | cons p rest ih =>
    obtain ⟨k1, v1⟩ := p
    simp only [keysNodup, Bool.and_eq_true, Bool.not_eq_true'] at hn
    rcases List.mem_cons.mp h with h1 | h1
    · obtain ⟨hk, hv⟩ := Prod.mk.injEq .. ▸ h1
      simp [dGet, hk, hv]
    · have hne : k1 ≠ k := by
        intro he
        exact absurd (he ▸ dContains_of_mem h1) (by simp [hn.1])
      simp only [dGet, if_neg hne]
      exact ih hn.2 h1

theorem dGet_dSet_self (m : List (String × α)) (k : String) (v : α) :
    dGet (dSet m k v) k = some v := by
  induction m with
  | nil => simp [dSet, dGet]
  | cons p rest ih =>
    obtain ⟨k1, v1⟩ := p
    by_cases h : k1 = k <;> simp [dSet, dGet, h, ih]

theorem dGet_dSet_ne (m : List (String × α)) (k k' : String) (v : α)
    (h : k' ≠ k) : dGet (dSet m k v) k' = dGet m k' := by
  induction m with
  | nil =>
    have hne : k ≠ k' := fun he => h he.symm
    simp [dSet, dGet, hne]
  | cons p rest ih =>
    obtain ⟨k1, v1⟩ := p
    by_cases h1 : k1 = k
    · subst h1
      have hne : k1 ≠ k' := fun he => h he.symm
      simp [dSet, dGet, hne]
    · by_cases h2 : k1 = k' <;> simp [dSet, dGet, h1, h2, h, ih]

theorem dGet_dDel_ne (m : List (String × α)) (k k' : String)
    (h : k' ≠ k) : dGet (dDel m k) k' = dGet m k' := by
  induction m with
  | nil => rfl
  | cons p rest ih =>
    obtain ⟨k1, v1⟩ := p
    by_cases h1 : k1 = k
    · subst h1
      have hne : k1 ≠ k' := fun he => h he.symm
      simp [dDel, dGet, hne]
    · by_cases h2 : k1 = k' <;> simp [dDel, dGet, h1, h2, h, ih]

theorem dGet_append (l1 l2 : List (String × α)) (k : String) :
    dGet (l1 ++ l2) k =
      match dGet l1 k with
      | some v => some v
      | none => dGet l2 k := by
  induction l1 with
  | nil => simp [dGet]
  | cons p rest ih =>
    obtain ⟨k1, v1⟩ := p
    by_cases h : k1 = k <;> simp [dGet, h, ih]

theorem dGet_mapOverride (a : List (String × α)) (f : String → α → α) (k : String) :
    dGet (a.map (fun p => (p.1, f p.1 p.2))) k = (dGet a k).map (f k) := by
  induction a with
  | nil => rfl
  | cons p rest ih =>
    obtain ⟨k1, v1⟩ := p
    by_cases h : k1 = k
    · subst h; simp [dGet]
    · simp [dGet, h, ih]

theorem dGet_filterKey (b : List (String × α)) (q : String → Bool) (k : String) :
    dGet (b.filter (fun p => q p.1)) k = if q k then dGet b k else none := by
  induction b with
  | nil => cases hq : q k <;> simp [dGet, hq]
  | cons p rest ih =>
    obtain ⟨k1, v1⟩ := p
    rw [List.filter_cons]
    by_cases h : k1 = k
    · subst h
      by_cases hq : q k1
      · rw [if_pos (by simp [hq])]
        simp [dGet, hq]
      · rw [if_neg (by simp [hq])]
        rw [ih]
        simp [hq]
    · by_cases hq : q k1
      · rw [if_pos (by simp [hq])]
        simp only [dGet, if_neg h]
        exact ih
      · rw [if_neg (by simp [hq]), ih]
        cases hqk : q k <;> simp [dGet, h, hqk]

theorem dGet_dunion (a b : List (String × α)) (k : String) :
    dGet (dunion a b) k =
      match dGet b k with
      | some w => if dContains a k then some w else dGet b k
      | none => dGet a k := by
  unfold dunion
  rw [dGet_append]
  have hmap := dGet_mapOverride a (fun k1 v => (dGet b k1).getD v) k
  have hfil := dGet_filterKey b (fun k1 => !dContains a k1) k
  rw [hmap, hfil]
  cases hga : dGet a k with
  | some v =>
    have hca : dContains a k = true := by rw [dContains_eq_isSome, hga]; rfl
    cases hgb : dGet b k <;> simp [hca, hgb, Option.getD]
  | none =>
    have hca : dContains a k = false := by rw [dContains_eq_isSome, hga]; rfl
    cases hgb : dGet b k <;> simp [hca, hgb]

/-- Lookup in a Python dict union: the right operand wins, the left fills in. -/
theorem dGet_dunion_or (a b : List (String × α)) (k : String) :
    dGet (dunion a b) k =
      match dGet b k with
      | some w => some w
      | none => dGet a k := by
  rw [dGet_dunion]
  cases hgb : dGet b k with
  | some w => by_cases hca : dContains a k <;> simp [hca, hgb]
  | none => rfl

theorem dContains_dunion (a b : List (String × α)) (k : String) :
    dContains (dunion a b) k = (dContains a k || dContains b k) := by
  rw [dContains_eq_isSome, dGet_dunion_or, dContains_eq_isSome, dContains_eq_isSome]
  cases dGet b k <;> cases dGet a k <;> simp

theorem dContains_dSet (m : List (String × α)) (k k' : String) (v : α) :
    dContains (dSet m k v) k' = (dContains m k' || k = k') := by
  by_cases h : k' = k
  · subst h
    rw [dContains_eq_isSome, dGet_dSet_self]
    simp
  · rw [dContains_eq_isSome, dGet_dSet_ne m k k' v h, ← dContains_eq_isSome]
    have hd : decide (k = k') = false := by
      simp only [decide_eq_false_iff_not]
      exact fun he => h he.symm
    simp [hd]

theorem keysNodup_dSet (m : List (String × α)) (k : String) (v : α)
    (h : keysNodup m = true) : keysNodup (dSet m k v) = true := by
  induction m with
  | nil => simp [dSet, keysNodup, dContains]
  | cons p rest ih =>
    obtain ⟨k1, v1⟩ := p
    simp only [keysNodup, Bool.and_eq_true, Bool.not_eq_true'] at h
    by_cases h1 : k1 = k
    · subst h1
      simp [dSet, keysNodup, h.1, h.2]
    · simp only [dSet, if_neg h1, keysNodup, Bool.and_eq_true, Bool.not_eq_true']
      refine ⟨?_, ih h.2⟩
      rw [dContains_dSet, h.1]
      have hd : decide (k = k1) = false := by
        simp only [decide_eq_false_iff_not]
        exact fun he => h1 he.symm
      simp [hd]

/-! ## Basic tree lemmas -/

theorem wfList_mem {es : List (String × Tree)} {k : String} {v : Tree}
    (h : wfList es = true) (hm : (k, v) ∈ es) : v.WF = true := by
  induction es with
  | nil => simp at hm
  | cons p rest ih =>
    obtain ⟨k1, v1⟩ := p
    simp only [wfList, Bool.and_eq_true] at h
    rcases List.mem_cons.mp hm with h1 | h1
    · exact (Prod.mk.injEq .. ▸ h1).2 ▸ h.1
    · exact ih h.2 h1

theorem wfList_filter (es : List (String × Tree)) (q : String × Tree → Bool)
    (h : wfList es = true) : wfList (es.filter q) = true := by
  induction es with
  | nil => simp [wfList]
  | cons p rest ih =>
    obtain ⟨k1, v1⟩ := p
    simp only [wfList, Bool.and_eq_true] at h
    rw [List.filter_cons]
    by_cases hq : q (k1, v1) <;> simp [hq, wfList, h.1, ih h.2]

theorem dContains_filter_imp (es : List (String × α)) (q : String × α → Bool)
    (k : String) (h : dContains (es.filter q) k = true) : dContains es k = true := by
  induction es with
  | nil => exact h
  | cons p rest ih =>
    obtain ⟨k1, v1⟩ := p
    rw [List.filter_cons] at h
    by_cases hq : q (k1, v1)
    · rw [if_pos (by simp [hq])] at h
      simp only [dContains, Bool.or_eq_true] at h ⊢
      exact h.imp id ih
    · rw [if_neg (by simp [hq])] at h
      simp only [dContains, Bool.or_eq_true]
      exact Or.inr (ih h)

theorem keysNodup_filter (es : List (String × α)) (q : String × α → Bool)
    (h : keysNodup es = true) : keysNodup (es.filter q) = true := by
  induction es with
  | nil => simp [keysNodup]
  | cons p rest ih =>
    obtain ⟨k1, v1⟩ := p
    simp only [keysNodup, Bool.and_eq_true, Bool.not_eq_true'] at h
    rw [List.filter_cons]
    by_cases hq : q (k1, v1)
    · rw [if_pos (by simp [hq])]
      simp only [keysNodup, Bool.and_eq_true, Bool.not_eq_true']
      refine ⟨?_, ih h.2⟩
      by_cases hc : dContains (rest.filter q) k1 = true
      · exact absurd (dContains_filter_imp rest q k1 hc) (by simp [h.1])
      · simpa using hc
    · rw [if_neg (by simp [hq])]
      exact ih h.2

theorem wfList_dSet (m : List (String × Tree)) (k : String) (v : Tree)
    (hm : wfList m = true) (hv : v.WF = true) : wfList (dSet m k v) = true := by
  induction m with
  | nil => simp [dSet, wfList, hv]
  | cons p rest ih =>
    obtain ⟨k1, v1⟩ := p
    simp only [wfList, Bool.and_eq_true] at hm
    by_cases h1 : k1 = k <;> simp [dSet, h1, wfList, hv, hm.1, hm.2, ih hm.2]

theorem sizeOf_val_lt {es : List (String × Tree)} {k : String} {v : Tree}
    (h : (k, v) ∈ es) : sizeOf v < sizeOf es := by
  have h1 : sizeOf (k, v) < sizeOf es := List.sizeOf_lt_of_mem h
  have h2 : sizeOf v < sizeOf (k, v) := by simp [Prod.mk.sizeOf_spec]
  omega

/-! ## `pyEq` lemmas -/

theorem pyEq_leaf (a b : Int) : pyEq (.leaf a) (.leaf b) = decide (a = b) := by
  simp [pyEq]

theorem pyEq_node_iff (a b : List (String × Tree)) :
    pyEq (.node a) (.node b) = true ↔
      pyEqSub a b = true ∧ ∀ p ∈ b, dContains a p.1 = true := by
  simp [pyEq, List.all_eq_true]

theorem pyEqSub_cons_iff (k : String) (v : Tree) (rest b : List (String × Tree)) :
    pyEqSub ((k, v) :: rest) b = true ↔
      (∃ w, dGet b k = some w ∧ pyEq v w = true) ∧ pyEqSub rest b = true := by
  simp only [pyEqSub, Bool.and_eq_true]
  constructor
  · rintro ⟨h1, h2⟩
    refine ⟨?_, h2⟩
    rcases hg : dGet b k with _ | w
    · rw [hg] at h1; simp at h1
    · rw [hg] at h1; exact ⟨w, rfl, h1⟩
  · rintro ⟨⟨w, hw, hp⟩, h2⟩
    rw [hw]
    exact ⟨hp, h2⟩

theorem pyEqSub_mem {a b : List (String × Tree)} {k : String} {v : Tree}
    (h : pyEqSub a b = true) (hm : (k, v) ∈ a) :
    ∃ w, dGet b k = some w ∧ pyEq v w = true := by
  induction a with
  | nil => simp at hm
  | cons p rest ih =>
    obtain ⟨k1, v1⟩ := p
    rw [pyEqSub_cons_iff] at h
    rcases List.mem_cons.mp hm with h1 | h1
    · obtain ⟨hk, hv⟩ := Prod.mk.injEq .. ▸ h1
      subst hk; subst hv
      exact h.1
    · exact ih h.2 h1

theorem pyEqSub_of_forall {a b : List (String × Tree)}
    (h : ∀ p ∈ a, ∃ w, dGet b p.1 = some w ∧ pyEq p.2 w = true) :
    pyEqSub a b = true := by
  induction a with
  | nil => rfl
  | cons p rest ih =>
    obtain ⟨k1, v1⟩ := p
    rw [pyEqSub_cons_iff]
    exact ⟨h (k1, v1) (List.mem_cons_self _ _),
      ih (fun q hq => h q (List.mem_cons_of_mem _ hq))⟩

theorem pyEq_refl_aux :
    ∀ n (t : Tree), sizeOf t ≤ n → t.WF = true → pyEq t t = true := by
  intro n
  induction n using Nat.strong_induction_on with
  | _ n ih =>
    intro t hsz hwf
    match t with
    | .leaf p => simp [pyEq]
    | .node es =>
      simp only [Tree.WF, Bool.and_eq_true] at hwf
      rw [pyEq_node_iff]
      constructor
      · refine pyEqSub_of_forall (fun p hp => ?_)
        refine ⟨p.2, dGet_eq_of_mem_nodup hwf.1 (by simpa using hp), ?_⟩
        have hlt : sizeOf p.2 < n := by
          have := sizeOf_val_lt (k := p.1) (v := p.2) (by simpa using hp)
          have : sizeOf p.2 < sizeOf (Tree.node es) := by
            simp [Tree.node.sizeOf_spec]; omega
          omega
        exact ih (sizeOf p.2) hlt p.2 le_rfl (wfList_mem hwf.2 (by simpa using hp))
      · exact fun p hp => dContains_of_mem (by simpa using hp)

theorem pyEq_refl (t : Tree) (hwf : t.WF = true) : pyEq t t = true :=
  pyEq_refl_aux (sizeOf t) t le_rfl hwf

theorem sizeOf_node (es : List (String × Tree)) :
    sizeOf (Tree.node es) = 1 + sizeOf es := by
  simp [Tree.node.sizeOf_spec]

theorem pyEq_symm_aux :
    ∀ n (a b : Tree), sizeOf a + sizeOf b ≤ n → a.WF = true → b.WF = true →
      pyEq a b = true → pyEq b a = true := by
  intro n
  induction n using Nat.strong_induction_on with
  | _ n ih =>
    intro a b hsz hwa hwb hab
    match a, b with
    | .leaf x, .leaf y =>
      simp only [pyEq, decide_eq_true_eq] at hab ⊢
      omega
    | .leaf _, .node _ => simp [pyEq] at hab
    | .node _, .leaf _ => simp [pyEq] at hab
    | .node xa, .node xb =>
      simp only [Tree.WF, Bool.and_eq_true] at hwa hwb
      rw [pyEq_node_iff] at hab
      rw [pyEq_node_iff]
      constructor
      · refine pyEqSub_of_forall (fun p hp => ?_)
        -- `p = (k, w) ∈ b`; the key is bound in `a`, and the `a`-binding is
        -- `pyEq` to `b`'s (unique) binding of the key, which is `p.2`.
        have hca : dContains xa p.1 = true := hab.2 p hp
        rcases hga : dGet xa p.1 with _ | v
        · rw [dContains_eq_isSome, hga] at hca; simp at hca
        · have hmemA : (p.1, v) ∈ xa := dGet_mem hga
          obtain ⟨w, hw, hvw⟩ := pyEqSub_mem hab.1 hmemA
          have hmemB : (p.1, p.2) ∈ xb := by simpa using hp
          have hgb : dGet xb p.1 = some p.2 := dGet_eq_of_mem_nodup hwb.1 hmemB
          have hwp : w = p.2 := Option.some_inj.mp (hw.symm.trans hgb)
          rw [hwp] at hvw
          have h1 : sizeOf v < sizeOf xa := sizeOf_val_lt hmemA
          have h2 : sizeOf p.2 < sizeOf xb := sizeOf_val_lt hmemB
          rw [sizeOf_node, sizeOf_node] at hsz
          have hlt : sizeOf v + sizeOf p.2 < n := by omega
          exact ⟨v, rfl, ih (sizeOf v + sizeOf p.2) hlt v p.2 le_rfl
            (wfList_mem hwa.2 hmemA) (wfList_mem hwb.2 hmemB) hvw⟩
      · intro p hp
        obtain ⟨w, hw, _⟩ := pyEqSub_mem hab.1 (by simpa using hp : (p.1, p.2) ∈ xa)
        rw [dContains_eq_isSome, hw]; rfl

theorem pyEq_symm {a b : Tree} (hwa : a.WF = true) (hwb : b.WF = true)
    (hab : pyEq a b = true) : pyEq b a = true :=
  pyEq_symm_aux (sizeOf a + sizeOf b) a b le_rfl hwa hwb hab

theorem keysEqDeepSub_of_forall {a b : List (String × Tree)}
    (h : ∀ p ∈ a, ∀ w, dGet b p.1 = some w → keysEqDeep p.2 w = true) :
    keysEqDeepSub a b = true := by
  induction a with
  | nil => rfl
  | cons p rest ih =>
    obtain ⟨k1, v1⟩ := p
    simp only [keysEqDeepSub, Bool.and_eq_true]
    refine ⟨?_, ih (fun q hq => h q (List.mem_cons_of_mem _ hq))⟩
    rcases hg : dGet b k1 with _ | w
    · rfl
    · exact h (k1, v1) (List.mem_cons_self _ _) w hg

theorem pyEq_imp_keysEqDeep_aux :
    ∀ n (a b : Tree), sizeOf a ≤ n → pyEq a b = true → keysEqDeep a b = true := by
  intro n
  induction n using Nat.strong_induction_on with
  | _ n ih =>
    intro a b hsz hab
    match a, b with
    | .leaf _, .leaf _ => rfl
    | .leaf _, .node _ => simp [pyEq] at hab
    | .node _, .leaf _ => simp [pyEq] at hab
    | .node xa, .node xb =>
      rw [pyEq_node_iff] at hab
      simp only [keysEqDeep, Bool.and_eq_true, List.all_eq_true]
      refine ⟨⟨fun p hp => ?_, fun p hp => by simpa using hab.2 p hp⟩, ?_⟩
      · obtain ⟨w, hw, _⟩ := pyEqSub_mem hab.1 (by simpa using hp : (p.1, p.2) ∈ xa)
        simp [dContains_eq_isSome, hw]
      · refine keysEqDeepSub_of_forall (fun p hp w hw => ?_)
        obtain ⟨w', hw', hvw⟩ :=
          pyEqSub_mem hab.1 (by simpa using hp : (p.1, p.2) ∈ xa)
        have hww : w' = w := by rw [hw] at hw'; exact (Option.some.injEq .. ▸ hw').symm
        have hlt : sizeOf p.2 < n := by
          have := sizeOf_val_lt (by simpa using hp : (p.1, p.2) ∈ xa)
          have h2 : sizeOf p.2 < sizeOf (Tree.node xa) := by
            simp [Tree.node.sizeOf_spec]; omega
          omega
        exact ih (sizeOf p.2) hlt p.2 w le_rfl (hww ▸ hvw)

theorem pyEq_imp_keysEqDeep {a b : Tree} (hab : pyEq a b = true) :
    keysEqDeep a b = true :=
  pyEq_imp_keysEqDeep_aux (sizeOf a) a b le_rfl hab

/-! ## `sync` lemmas -/

theorem syncLoop_noop :
    ∀ (l synced : List (String × Tree)),
      (∀ k rv, (k, rv) ∈ l → ∃ sv, dGet synced k = some sv ∧ pyEq rv sv = true) →
      syncLoop l synced = synced := by
  intro l
  induction l with
  | nil => intro synced _; rfl
  | cons p rest ih =>
    obtain ⟨k, rv⟩ := p
    intro synced h
    obtain ⟨sv, hg, hpe⟩ := h k rv (List.mem_cons_self _ _)
    have heq : syncLoop ((k, rv) :: rest) synced = syncLoop rest synced := by
      simp [syncLoop, hg, hpe]
    rw [heq]
    exact ih synced (fun k0 rv0 hm => h k0 rv0 (List.mem_cons_of_mem _ hm))

/-- The invariant of `sync`'s `for key in reference` loop: the result's keys
are those of `synced` plus those of the remaining reference entries; keys not
in the remaining reference keep their binding; and every remaining reference
entry ends bound to a well-formed value deep-equal to the reference's value. -/
theorem syncLoop_spec (n : Nat)
    (IH : ∀ (r t : Tree), sizeOf r < n → r.WF = true → t.WF = true →
      pyEq (sync r t) r = true ∧ (sync r t).WF = true) :
    ∀ (l : List (String × Tree)), ∀ (synced : List (String × Tree)),
      (∀ p ∈ l, sizeOf p.2 < n) →
      keysNodup l = true → wfList l = true →
      keysNodup synced = true → wfList synced = true →
      keysNodup (syncLoop l synced) = true ∧
      wfList (syncLoop l synced) = true ∧
      (∀ k', dContains (syncLoop l synced) k' =
        (dContains synced k' || dContains l k')) ∧
      (∀ k', dContains l k' = false →
        dGet (syncLoop l synced) k' = dGet synced k') ∧
      (∀ k rv, (k, rv) ∈ l →
        ∃ v, dGet (syncLoop l synced) k = some v ∧ pyEq v rv = true ∧
          v.WF = true) := by
  intro l
  induction l with
  | nil =>
    intro synced _ _ _ hknd hwfl
    refine ⟨hknd, hwfl, fun k' => by simp [syncLoop, dContains], fun k' _ => rfl,
      fun k rv hm => by simp at hm⟩
  | cons p rest ihl =>
    obtain ⟨k, rv⟩ := p
    intro synced hsz hknd hwfl hknds hwfls
    simp only [keysNodup, Bool.and_eq_true, Bool.not_eq_true'] at hknd
    simp only [wfList, Bool.and_eq_true] at hwfl
    -- the common continuation, once the step's new `synced` dict is known
    have main : ∀ (synced' : List (String × Tree)),
        syncLoop ((k, rv) :: rest) synced = syncLoop rest synced' →
        keysNodup synced' = true → wfList synced' = true →
        (∀ k', dContains synced' k' = (dContains synced k' || decide (k = k'))) →
        (∀ k', k ≠ k' → dGet synced' k' = dGet synced k') →
        (∃ v, dGet synced' k = some v ∧ pyEq v rv = true ∧ v.WF = true) →
        keysNodup (syncLoop ((k, rv) :: rest) synced) = true ∧
        wfList (syncLoop ((k, rv) :: rest) synced) = true ∧
        (∀ k', dContains (syncLoop ((k, rv) :: rest) synced) k' =
          (dContains synced k' || dContains ((k, rv) :: rest) k')) ∧
        (∀ k', dContains ((k, rv) :: rest) k' = false →
          dGet (syncLoop ((k, rv) :: rest) synced) k' = dGet synced k') ∧
        (∀ k0 rv0, (k0, rv0) ∈ (k, rv) :: rest →
          ∃ v, dGet (syncLoop ((k, rv) :: rest) synced) k0 = some v ∧
            pyEq v rv0 = true ∧ v.WF = true) := by
      intro synced' heq hknd' hwfl' hcont' hunch' hbound
      obtain ⟨cknd, cwfl, ccont, cunch, cmem⟩ :=
        ihl synced' (fun p hp => hsz p (List.mem_cons_of_mem _ hp))
          hknd.2 hwfl.2 hknd' hwfl'
      rw [heq]
      refine ⟨cknd, cwfl, ?_, ?_, ?_⟩
      · intro k'
        rw [ccont k', hcont' k']
        simp only [dContains]
        cases dContains synced k' <;> cases dContains rest k' <;>
          cases hd : (decide (k = k')) <;> simp
      · intro k' hc
        simp only [dContains, Bool.or_eq_false_iff] at hc
        rw [cunch k' hc.2, hunch' k' (by simpa using hc.1)]
      · intro k0 rv0 hm
        rcases List.mem_cons.mp hm with h1 | h1
        · obtain ⟨hk0, hrv0⟩ := Prod.mk.injEq .. ▸ h1
          subst hk0; subst hrv0
          obtain ⟨v, hv, hpe2, hwf⟩ := hbound
          refine ⟨v, ?_, hpe2, hwf⟩
          rw [cunch k0 hknd.1]
          exact hv
        · exact cmem k0 rv0 h1
    rcases hg : dGet synced k with _ | sv
    · -- key not yet in `synced`: `synced[key] = reference[key]`
      have heq : syncLoop ((k, rv) :: rest) synced =
          syncLoop rest (dSet synced k rv) := by
        simp [syncLoop, hg]
      refine main (dSet synced k rv) heq (keysNodup_dSet _ _ _ hknds)
        (wfList_dSet _ _ _ hwfls hwfl.1)
        (fun k' => dContains_dSet synced k k' rv)
        (fun k' hk => dGet_dSet_ne synced k k' rv (fun he => hk he.symm))
        ⟨rv, dGet_dSet_self synced k rv, pyEq_refl rv hwfl.1, hwfl.1⟩
    · have hsvwf : sv.WF = true := wfList_mem hwfls (dGet_mem hg)
      by_cases hpe : pyEq rv sv = true
      · -- equal values: `continue`, `synced` unchanged
        have heq : syncLoop ((k, rv) :: rest) synced = syncLoop rest synced := by
          simp [syncLoop, hg, hpe]
        have hck : dContains synced k = true := by
          rw [dContains_eq_isSome, hg]; rfl
        refine main synced heq hknds hwfls ?_ (fun _ _ => rfl)
          ⟨sv, hg, pyEq_symm hwfl.1 hsvwf hpe, hsvwf⟩
        intro k'
        by_cases hk : k = k'
        · subst hk; simp [hck]
        · simp [hk]
      · -- unequal: recurse when both are mappings, else adopt the reference
        have hpe' : pyEq rv sv = false := by simpa using hpe
        have hszrv : sizeOf rv < n := hsz (k, rv) (List.mem_cons_self _ _)
        rcases rv with pr | rn
        · have heq : syncLoop ((k, .leaf pr) :: rest) synced =
              syncLoop rest (dSet synced k (.leaf pr)) := by
            rcases sv with ps | sn <;> simp [syncLoop, hg, hpe']
          exact main (dSet synced k (.leaf pr)) heq (keysNodup_dSet _ _ _ hknds)
            (wfList_dSet _ _ _ hwfls hwfl.1)
            (fun k' => dContains_dSet synced k k' _)
            (fun k' hk => dGet_dSet_ne synced k k' _ (fun he => hk he.symm))
            ⟨.leaf pr, dGet_dSet_self synced k _, pyEq_refl _ hwfl.1, hwfl.1⟩
        · rcases sv with ps | sn
          · have heq : syncLoop ((k, .node rn) :: rest) synced =
                syncLoop rest (dSet synced k (.node rn)) := by
              simp [syncLoop, hg, hpe']
            exact main (dSet synced k (.node rn)) heq (keysNodup_dSet _ _ _ hknds)
              (wfList_dSet _ _ _ hwfls hwfl.1)
              (fun k' => dContains_dSet synced k k' _)
              (fun k' hk => dGet_dSet_ne synced k k' _ (fun he => hk he.symm))
              ⟨.node rn, dGet_dSet_self synced k _, pyEq_refl _ hwfl.1, hwfl.1⟩
          · -- both mappings: `synced[key] = sync(reference[key], synced[key])`
            have heq : syncLoop ((k, .node rn) :: rest) synced =
                syncLoop rest (dSet synced k (sync (.node rn) (.node sn))) := by
              simp [syncLoop, hg, hpe']
            obtain ⟨hpy, hwf⟩ := IH (.node rn) (.node sn) hszrv hwfl.1 hsvwf
            exact main (dSet synced k (sync (.node rn) (.node sn))) heq
              (keysNodup_dSet _ _ _ hknds) (wfList_dSet _ _ _ hwfls hwf)
              (fun k' => dContains_dSet synced k k' _)
              (fun k' hk => dGet_dSet_ne synced k k' _ (fun he => hk he.symm))
              ⟨sync (.node rn) (.node sn), dGet_dSet_self synced k _, hpy, hwf⟩

theorem sync_spec_aux :
    ∀ n (r t : Tree), sizeOf r ≤ n → r.WF = true → t.WF = true →
      pyEq (sync r t) r = true ∧ (sync r t).WF = true := by
  intro n
  induction n using Nat.strong_induction_on with
  | _ n ih =>
    intro r t hsz hwr hwt
    match r, t with
    | .leaf p, t =>
      have he : sync (.leaf p) t = .leaf p := by cases t <;> rfl
      rw [he]
      exact ⟨pyEq_refl _ hwr, hwr⟩
    | .node ref, .leaf q =>
      have he : sync (.node ref) (.leaf q) = .node ref := rfl
      rw [he]
      exact ⟨pyEq_refl _ hwr, hwr⟩
    | .node ref, .node tgt =>
      simp only [Tree.WF, Bool.and_eq_true] at hwr hwt
      rw [sizeOf_node] at hsz
      have IH : ∀ (r' t' : Tree), sizeOf r' < n → r'.WF = true → t'.WF = true →
          pyEq (sync r' t') r' = true ∧ (sync r' t').WF = true :=
        fun r' t' h' hw1 hw2 => ih (sizeOf r') h' r' t' le_rfl hw1 hw2
      have hszs : ∀ p ∈ ref, sizeOf p.2 < n := by
        intro p hp
        have := sizeOf_val_lt (by simpa using hp : (p.1, p.2) ∈ ref)
        omega
      obtain ⟨cknd, cwfl, ccont, cunch, cmem⟩ :=
        syncLoop_spec n IH ref (tgt.filter (fun p => dContains ref p.1)) hszs
          hwr.1 hwr.2 (keysNodup_filter _ _ hwt.1) (wfList_filter _ _ hwt.2)
      have he : sync (.node ref) (.node tgt) =
          .node (syncLoop ref (tgt.filter (fun p => dContains ref p.1))) := rfl
      rw [he]
      have hfilsub : ∀ k, dContains (tgt.filter (fun p => dContains ref p.1)) k = true →
          dContains ref k = true := by
        intro k hk
        rw [dContains_eq_isSome, dGet_filterKey tgt (fun k0 => dContains ref k0) k] at hk
        by_cases hc : dContains ref k = true
        · exact hc
        · rw [if_neg hc] at hk; simp at hk
      constructor
      · rw [pyEq_node_iff]
        constructor
        · refine pyEqSub_of_forall (fun p hp => ?_)
          have hck : dContains ref p.1 = true := by
            have h1 : dContains (syncLoop ref (tgt.filter (fun p => dContains ref p.1))) p.1 = true :=
              dContains_of_mem (by simpa using hp)
            rw [ccont] at h1
            rcases Bool.or_eq_true .. ▸ h1 with h2 | h2
            · exact hfilsub p.1 h2
            · exact h2
          rcases hgr : dGet ref p.1 with _ | w
          · rw [dContains_eq_isSome, hgr] at hck; simp at hck
          · obtain ⟨v, hv, hpe, _⟩ := cmem p.1 w (dGet_mem hgr)
            have hvp : v = p.2 := by
              have := dGet_eq_of_mem_nodup cknd (by simpa using hp :
                (p.1, p.2) ∈ syncLoop ref (tgt.filter (fun p => dContains ref p.1)))
              rw [hv] at this
              exact Option.some_inj.mp this
            exact ⟨w, rfl, hvp ▸ hpe⟩
        · intro p hp
          rw [ccont]
          simp [dContains_of_mem (by simpa using hp : (p.1, p.2) ∈ ref)]
      · simp only [Tree.WF, Bool.and_eq_true]
        exact ⟨cknd, cwfl⟩

/-- `sync`'s result is Python-`==` to the reference. -/
theorem sync_pyEq (r t : Tree) (hr : r.WF = true) (ht : t.WF = true) :
    pyEq (sync r t) r = true :=
  (sync_spec_aux (sizeOf r) r t le_rfl hr ht).1

theorem sync_WF (r t : Tree) (hr : r.WF = true) (ht : t.WF = true) :
    (sync r t).WF = true :=
  (sync_spec_aux (sizeOf r) r t le_rfl hr ht).2

/-- Syncing a target that is already Python-`==` to the reference returns the
target unchanged (equality short-circuits every entry). -/
theorem sync_of_pyEq :
    ∀ (r s : Tree), r.WF = true → s.WF = true → pyEq s r = true → sync r s = s := by
  intro r s hr hs hp
  match r, s with
  | .leaf p, .leaf q =>
    simp only [pyEq, decide_eq_true_eq] at hp
    show Tree.leaf p = Tree.leaf q
    rw [hp]
  | .leaf _, .node _ => simp [pyEq] at hp
  | .node _, .leaf _ => simp [pyEq] at hp
  | .node ref, .node sEs =>
    simp only [Tree.WF, Bool.and_eq_true] at hr hs
    rw [pyEq_node_iff] at hp
    have hfil : sEs.filter (fun p => dContains ref p.1) = sEs := by
      rw [List.filter_eq_self]
      intro p hp2
      obtain ⟨w, hw, _⟩ := pyEqSub_mem hp.1 (by simpa using hp2 : (p.1, p.2) ∈ sEs)
      rw [dContains_eq_isSome, hw]; rfl
    have hloop : syncLoop ref sEs = sEs := by
      refine syncLoop_noop ref sEs (fun k rv hm => ?_)
      have hcs : dContains sEs k = true := hp.2 (k, rv) hm
      rcases hgs : dGet sEs k with _ | sv
      · rw [dContains_eq_isSome, hgs] at hcs; simp at hcs
      · obtain ⟨w, hw, hpe⟩ := pyEqSub_mem hp.1 (dGet_mem hgs)
        have hwrv : w = rv :=
          Option.some_inj.mp (hw.symm.trans (dGet_eq_of_mem_nodup hr.1 hm))
        rw [hwrv] at hpe
        exact ⟨sv, rfl, pyEq_symm (wfList_mem hs.2 (dGet_mem hgs)) (wfList_mem hr.2 hm)
          hpe⟩
    show Tree.node (syncLoop ref (sEs.filter (fun p => dContains ref p.1))) = Tree.node sEs
    rw [hfil, hloop]

/-- C3: for every reference tree `r` and target tree `t`, `sync(r, t)` has no
key absent from `r` and every key of `t` absent from `r` is removed: at every
level its key set equals the key set of `r` (and node/leaf shapes match). -/
theorem sync_keyset_matches_reference (r t : Tree)
    (hr : r.WF = true) (ht : t.WF = true) :
    keysEqDeep (sync r t) r = true :=
  pyEq_imp_keysEqDeep (sync_pyEq r t hr ht)

theorem sync_keyset_matches_reference_witness :
    (Tree.node [("x", .leaf 1), ("y", .node [("z", .leaf 2)])]).WF = true ∧
    (Tree.node [("y", .node [("z", .leaf 3), ("w", .leaf 4)]), ("q", .leaf 5)]).WF
      = true ∧
    keysEqDeep
      (sync (Tree.node [("x", .leaf 1), ("y", .node [("z", .leaf 2)])])
        (Tree.node [("y", .node [("z", .leaf 3), ("w", .leaf 4)]), ("q", .leaf 5)]))
      (Tree.node [("x", .leaf 1), ("y", .node [("z", .leaf 2)])]) = true :=
  ⟨by rfl, by rfl, sync_keyset_matches_reference _ _ (by rfl) (by rfl)⟩

/-- C4: `sync(r, sync(r, t)) == sync(r, t)` and `sync(r, r) == r` — both hold
as structural identity of the embedding's values, which implies the source's
`==` (`pyEq`). -/
theorem sync_convergence (r t : Tree) (hr : r.WF = true) (ht : t.WF = true) :
    sync r (sync r t) = sync r t ∧ sync r r = r :=
  ⟨sync_of_pyEq r (sync r t) hr (sync_WF r t hr ht) (sync_pyEq r t hr ht),
   sync_of_pyEq r r hr hr (pyEq_refl r hr)⟩

theorem sync_convergence_witness :
    (Tree.node [("x", .leaf 1), ("y", .node [("z", .leaf 2)])]).WF = true ∧
    (Tree.node [("y", .node [("z", .leaf 3), ("w", .leaf 4)]), ("q", .leaf 5)]).WF
      = true ∧
    (sync (Tree.node [("x", .leaf 1), ("y", .node [("z", .leaf 2)])])
        (sync (Tree.node [("x", .leaf 1), ("y", .node [("z", .leaf 2)])])
          (Tree.node [("y", .node [("z", .leaf 3), ("w", .leaf 4)]), ("q", .leaf 5)])) =
      sync (Tree.node [("x", .leaf 1), ("y", .node [("z", .leaf 2)])])
        (Tree.node [("y", .node [("z", .leaf 3), ("w", .leaf 4)]), ("q", .leaf 5)]) ∧
      sync (Tree.node [("x", .leaf 1), ("y", .node [("z", .leaf 2)])])
        (Tree.node [("x", .leaf 1), ("y", .node [("z", .leaf 2)])]) =
      Tree.node [("x", .leaf 1), ("y", .node [("z", .leaf 2)])]) :=
  ⟨by rfl, by rfl, sync_convergence _ _ (by rfl) (by rfl)⟩

/-! ## Deferred-deletion lemmas (the transformer's `marks` epilogue) -/

theorem decide_eq_symm (a b : String) : decide (a = b) = decide (b = a) := by
  by_cases h : a = b
  · simp [h]
  · have hba : ¬b = a := fun he => h he.symm
    simp [h, hba]

theorem dContains_dDel_imp (m : List (String × α)) (k0 k : String)
    (h : dContains (dDel m k0) k = true) : dContains m k = true := by
  induction m with
  | nil => exact h
  | cons p rest ih =>
    obtain ⟨k1, v1⟩ := p
    simp only [dDel] at h
    by_cases h1 : k1 = k0
    · rw [if_pos h1] at h
      simp only [dContains, Bool.or_eq_true]
      exact Or.inr h
    · rw [if_neg h1] at h
      simp only [dContains, Bool.or_eq_true] at h ⊢
      exact h.imp id ih

theorem dContains_foldl_dDel_imp (ks : List String) :
    ∀ (m : List (String × α)) (k : String),
      dContains (ks.foldl (fun acc k0 => dDel acc k0) m) k = true →
      dContains m k = true := by
  induction ks with
  | nil => intro m k h; exact h
  | cons k0 rest ih =>
    intro m k h
    rw [List.foldl_cons] at h
    exact dContains_dDel_imp m k0 k (ih (dDel m k0) k h)

theorem filter_key_eq_self (m : List (String × α)) (k : String)
    (h : dContains m k = false) :
    m.filter (fun p => !(decide (p.1 = k))) = m := by
  rw [List.filter_eq_self]
  intro p hp
  simp only [Bool.not_eq_true', decide_eq_false_iff_not]
  intro he
  rw [← he] at h
  exact absurd (dContains_of_mem hp) (by simp [h])

theorem dDel_eq_filter (m : List (String × α)) (k : String)
    (hn : keysNodup m = true) :
    dDel m k = m.filter (fun p => !(decide (p.1 = k))) := by
  induction m with
  | nil => rfl
  | cons p rest ih =>
    obtain ⟨k1, v1⟩ := p
    simp only [keysNodup, Bool.and_eq_true, Bool.not_eq_true'] at hn
    rw [List.filter_cons]
    by_cases h1 : k1 = k
    · subst h1
      have hL : dDel ((k1, v1) :: rest) k1 = rest := by simp [dDel]
      rw [hL, if_neg (by simp)]
      exact (filter_key_eq_self rest k1 hn.1).symm
    · have hL : dDel ((k1, v1) :: rest) k = (k1, v1) :: dDel rest k := by
        simp [dDel, h1]
      rw [hL, if_pos (by simp [h1]), ih hn.2]

theorem keysNodup_dDel (m : List (String × α)) (k : String)
    (hn : keysNodup m = true) : keysNodup (dDel m k) = true := by
  rw [dDel_eq_filter m k hn]
  exact keysNodup_filter m _ hn

theorem foldl_dDel_filter (ks : List String) :
    ∀ (m : List (String × α)), keysNodup m = true →
      ks.foldl (fun acc k0 => dDel acc k0) m =
        m.filter (fun p => !(ks.any (fun k0 => decide (k0 = p.1)))) := by
  induction ks with
  | nil =>
    intro m _
    simp
  | cons k0 rest ih =>
    intro m hn
    rw [List.foldl_cons, ih (dDel m k0) (keysNodup_dDel m k0 hn),
      dDel_eq_filter m k0 hn, List.filter_filter]
    refine List.filter_congr (fun p _ => ?_)
    rw [decide_eq_symm p.1 k0]
    cases hb : decide (k0 = p.1) <;> simp [hb]

theorem foldl_dDel_cons (ks : List String) (k : String) (v : α)
    (m : List (String × α)) (h : ∀ k0 ∈ ks, k0 ≠ k) :
    ks.foldl (fun acc k0 => dDel acc k0) ((k, v) :: m) =
      (k, v) :: ks.foldl (fun acc k0 => dDel acc k0) m := by
  induction ks generalizing m with
  | nil => rfl
  | cons k0 rest ih =>
    rw [List.foldl_cons, List.foldl_cons]
    have hne : k ≠ k0 := fun he => (h k0 (List.mem_cons_self _ _)) he.symm
    have hd : dDel ((k, v) :: m) k0 = (k, v) :: dDel m k0 := by
      simp [dDel, hne]
    rw [hd]
    exact ih (dDel m k0) (fun k1 h1 => h k1 (List.mem_cons_of_mem _ h1))

theorem applyMarks_nil : applyMarks [] = [] := rfl

theorem applyMarks_cons_marked (k : String) (v : Tree)
    (tl : List ((String × Tree) × Bool)) :
    applyMarks (((k, v), true) :: tl) = applyMarks tl := by
  simp only [applyMarks, List.filter_cons, List.map_cons, List.foldl_cons]
  rw [if_pos (by simp)]
  simp only [List.map_cons, List.foldl_cons]
  congr 1
  simp [dDel]

theorem applyMarks_cons_unmarked (k : String) (v : Tree)
    (tl : List ((String × Tree) × Bool))
    (h : ∀ e ∈ tl, e.2 = true → e.1.1 ≠ k) :
    applyMarks (((k, v), false) :: tl) = (k, v) :: applyMarks tl := by
  simp only [applyMarks, List.filter_cons, List.map_cons]
  rw [if_neg (by simp)]
  refine foldl_dDel_cons _ k v _ (fun k0 hk0 => ?_)
  simp only [List.mem_map, List.mem_filter] at hk0
  obtain ⟨e, ⟨hmem, hmark⟩, hkey⟩ := hk0
  exact hkey ▸ h e hmem hmark

/-! ## The transformer's pass structure (claim C5 machinery) -/

/-- Every processed entry keeps its key and position: one output per input
entry, in order, regardless of the hooks (including deletion predicates). -/
theorem updatePassF_cons_shape (fuel : Nat) (hk : Hooks) (k : String) (v : Tree)
    (rest : List (String × Tree)) (pass : List ((String × Tree) × Bool))
    (h : updatePassF fuel hk ((k, v) :: rest) = some pass) :
    ∃ v' b tl, pass = ((k, v'), b) :: tl ∧ updatePassF fuel hk rest = some tl := by
  have tailOf : ∀ (x : Tree) (b : Bool),
      (updatePassF fuel hk rest).map
          (fun tl => ((k, x), b) :: tl) = some pass →
      ∃ v' b' tl, pass = ((k, v'), b') :: tl ∧ updatePassF fuel hk rest = some tl := by
    intro x b hmap
    rcases ht : updatePassF fuel hk rest with _ | tl
    · rw [ht] at hmap; simp at hmap
    · rw [ht] at hmap
      have h2 : some (((k, x), b) :: tl) = some pass := hmap
      exact ⟨x, b, tl, (Option.some_inj.mp h2).symm, rfl⟩
  cases v with
  | leaf p =>
    simp only [updatePassF] at h
    by_cases hsk : hk.skipKey k = true
    · rw [if_pos hsk] at h
      exact tailOf _ _ h
    · rw [if_neg hsk] at h
      by_cases h1 : hk.skipLeaf (hk.leafFunPre (.leaf p)) = true
      · rw [if_pos h1] at h
        exact tailOf _ _ h
      · rw [if_neg h1] at h
        by_cases h2 : hk.delLeafPre (hk.leafFunPre (.leaf p)) = true
        · rw [if_pos h2] at h
          exact tailOf _ _ h
        · rw [if_neg h2] at h
          exact tailOf _ _ h
  | node n =>
    simp only [updatePassF] at h
    by_cases hsk : hk.skipKey k = true
    · rw [if_pos hsk] at h
      exact tailOf _ _ h
    · rw [if_neg hsk] at h
      by_cases h1 : hk.skipNode (hk.nodeFunPre n) = true
      · rw [if_pos h1] at h
        exact tailOf _ _ h
      · rw [if_neg h1] at h
        by_cases h2 : hk.delNodePre (hk.nodeFunPre n) = true
        · rw [if_pos h2] at h
          exact tailOf _ _ h
        · rw [if_neg h2] at h
          by_cases hfz : fuel = 0
          · rw [dif_pos hfz] at h; simp at h
          · rw [dif_neg hfz] at h
            rcases hin : updatePassF (fuel - 1) hk (hk.nodeFunPre n) with _ | passInner
            · rw [hin] at h; simp at h
            · rw [hin] at h
              exact tailOf _ _ h

/-- The keys traversed by one pass are exactly the node's original keys in
their original order, whatever the hooks mark for deletion. -/
theorem updatePassF_keys (fuel : Nat) (hk : Hooks) :
    ∀ (es : List (String × Tree)) (pass : List ((String × Tree) × Bool)),
      updatePassF fuel hk es = some pass →
      pass.map (fun e => e.1.1) = es.map Prod.fst := by
  intro es
  induction es with
  | nil =>
    intro pass h
    rw [updatePassF] at h
    simp only [Option.some.injEq] at h
    rw [← h]
    rfl
  | cons p rest ih =>
    obtain ⟨k, v⟩ := p
    intro pass h
    obtain ⟨v', b, tl, hp, htl⟩ := updatePassF_cons_shape fuel hk k v rest pass h
    rw [hp]
    simp only [List.map_cons]
    rw [ih tl htl]

theorem dContains_map_keys_eq {m1 : List (String × α)} {m2 : List (String × β)}
    (h : m1.map Prod.fst = m2.map Prod.fst) (k : String) :
    dContains m1 k = dContains m2 k := by
  induction m1 generalizing m2 with
  | nil =>
    cases m2 with
    | nil => rfl
    | cons q t2 => simp at h
  | cons p t1 ih =>
    cases m2 with
    | nil => simp at h
    | cons q t2 =>
      simp only [List.map_cons, List.cons.injEq] at h
      simp only [dContains, h.1, ih h.2]

theorem keysNodup_map_keys_eq {m1 : List (String × α)} {m2 : List (String × β)}
    (h : m1.map Prod.fst = m2.map Prod.fst) :
    keysNodup m1 = keysNodup m2 := by
  induction m1 generalizing m2 with
  | nil =>
    cases m2 with
    | nil => rfl
    | cons q t2 => simp at h
  | cons p t1 ih =>
    cases m2 with
    | nil => simp at h
    | cons q t2 =>
      simp only [List.map_cons, List.cons.injEq] at h
      simp only [keysNodup, dContains_map_keys_eq h.2, h.1, ih h.2]

/-- With unique keys, the epilogue's in-order deletions amount to dropping the
marked entries from the processed pass, keeping the rest in pass order. -/
theorem applyMarks_eq_filter :
    ∀ (pass : List ((String × Tree) × Bool)),
      keysNodup (pass.map (fun e => e.1)) = true →
      applyMarks pass = (pass.filter (fun e => !e.2)).map (fun e => e.1) := by
  intro pass
  induction pass with
  | nil => intro _; rfl
  | cons e tl ih =>
    obtain ⟨⟨k, v⟩, b⟩ := e
    intro hn
    simp only [List.map_cons, keysNodup, Bool.and_eq_true, Bool.not_eq_true'] at hn
    have hkeys : ∀ e' ∈ tl, e'.1.1 ≠ k := by
      intro e' hmem he
      have hmm : e'.1 ∈ tl.map (fun (x : (String × Tree) × Bool) => x.1) :=
        List.mem_map_of_mem _ hmem
      have hc : dContains (tl.map (fun (x : (String × Tree) × Bool) => x.1)) k
          = true := by
        rw [← he]
        exact dContains_of_mem (show (e'.1.1, e'.1.2) ∈ _ from hmm)
      simp [hn.1] at hc
    cases b with
    | true =>
      rw [applyMarks_cons_marked k v tl, ih hn.2, List.filter_cons]
      rw [if_neg (by simp)]
    | false =>
      rw [applyMarks_cons_unmarked k v tl (fun e' hm hmk => hkeys e' hm), ih hn.2,
        List.filter_cons, if_pos (by simp)]
      rfl

/-- C5: during one transform pass, deletion predicates only mark; every entry
of the node is still visited, in the original order, whatever gets marked
(first conjunct), and only after the full pass are exactly the marked keys
removed, so the result is the processed entries minus the marked ones, in pass
order (second conjunct). -/
theorem update_deferred_deletion (fuel : Nat) (hk : Hooks)
    (es : List (String × Tree)) (pass : List ((String × Tree) × Bool))
    (hknd : keysNodup es = true)
    (h : updatePassF fuel hk es = some pass) :
    pass.map (fun e => e.1.1) = es.map Prod.fst ∧
    updateF fuel hk es = some ((pass.filter (fun e => !e.2)).map (fun e => e.1)) := by
  have htrace := updatePassF_keys fuel hk es pass h
  refine ⟨htrace, ?_⟩
  have hkeys : (pass.map (fun e => e.1)).map Prod.fst = es.map Prod.fst := by
    rw [List.map_map]
    exact htrace
  have hnd : keysNodup (pass.map (fun e => e.1)) = true := by
    rw [keysNodup_map_keys_eq hkeys]
    exact hknd
  show (updatePassF fuel hk es).map applyMarks = _
  rw [h]
  show some (applyMarks pass) = _
  rw [applyMarks_eq_filter pass hnd]

theorem update_deferred_deletion_witness :
    keysNodup [("a", Tree.leaf 0), ("b", Tree.leaf 2)] = true ∧
    updatePassF 1 filtHooks [("a", Tree.leaf 0), ("b", Tree.leaf 2)] =
      some [(("a", Tree.leaf 0), true), (("b", Tree.leaf 2), false)] ∧
    ([(("a", Tree.leaf 0), true), (("b", Tree.leaf 2), false)].map
        (fun e => e.1.1) =
      [("a", Tree.leaf 0), ("b", Tree.leaf 2)].map Prod.fst ∧
     updateF 1 filtHooks [("a", Tree.leaf 0), ("b", Tree.leaf 2)] =
      some ([(("a", Tree.leaf 0), true), (("b", Tree.leaf 2), false)].filter
          (fun e => !e.2) |>.map (fun e => e.1))) :=
  ⟨by decide, by simp [updatePassF, filtHooks, is_falsey],
   update_deferred_deletion 1 filtHooks _ _ (by decide)
     (by simp [updatePassF, filtHooks, is_falsey])⟩

/-! ## `filt` (claim C6 machinery) -/

theorem dContains_iff_mem_keys (m : List (String × α)) (k : String) :
    dContains m k = true ↔ k ∈ m.map Prod.fst := by
  induction m with
  | nil => simp [dContains]
  | cons p rest ih =>
    obtain ⟨k1, v1⟩ := p
    simp only [dContains, Bool.or_eq_true, decide_eq_true_eq, List.map_cons,
      List.mem_cons, ih]
    constructor
    · rintro (h | h)
      · exact Or.inl h.symm
      · exact Or.inr h
    · rintro (h | h)
      · exact Or.inl h.symm
      · exact Or.inr h

/-- `filt` is `update` with the `filt` hooks (the `apply` wrapper's `copy` is
the identity on values). -/
theorem filtF_eq_updateF (fuel : Nat) (es : List (String × Tree)) :
    filtF fuel es = updateF fuel filtHooks es := rfl

theorem filtPass_nil (fuel : Nat) : updatePassF fuel filtHooks [] = some [] := by
  simp [updatePassF]

theorem filtPass_cons_leaf (fuel : Nat) (k : String) (p : Int)
    (rest : List (String × Tree)) :
    updatePassF fuel filtHooks ((k, .leaf p) :: rest) =
      (updatePassF fuel filtHooks rest).map
        (fun tl => ((k, Tree.leaf p), decide (p = 0)) :: tl) := by
  simp [updatePassF, filtHooks, is_falsey]

theorem filtPass_cons_node_zero (k : String) (n rest : List (String × Tree)) :
    updatePassF 0 filtHooks ((k, .node n) :: rest) = none := by
  simp [updatePassF, filtHooks]

theorem filtPass_cons_node (fuel : Nat) (k : String)
    (n rest : List (String × Tree)) :
    updatePassF (fuel + 1) filtHooks ((k, .node n) :: rest) =
      (updatePassF fuel filtHooks n).bind fun passInner =>
        (updatePassF (fuel + 1) filtHooks rest).map
          (fun tl => ((k, Tree.node (applyMarks passInner)),
            (applyMarks passInner).isEmpty) :: tl) := by
  simp [updatePassF, filtHooks, is_falsey]

theorem updateF_some_pass (fuel : Nat) (hk : Hooks) (es res : List (String × Tree))
    (h : updateF fuel hk es = some res) :
    ∃ pass, updatePassF fuel hk es = some pass ∧ applyMarks pass = res := by
  rcases hp : updatePassF fuel hk es with _ | pass
  · rw [updateF, hp] at h; simp at h
  · rw [updateF, hp] at h
    have h2 : some (applyMarks pass) = some res := h
    exact ⟨pass, rfl, Option.some_inj.mp h2⟩

theorem updateF_of_pass (fuel : Nat) (hk : Hooks) (es : List (String × Tree))
    (pass : List ((String × Tree) × Bool))
    (h : updatePassF fuel hk es = some pass) :
    updateF fuel hk es = some (applyMarks pass) := by
  rw [updateF, h]
  rfl

/-- The invariant behind the idempotence of `filt`: filtering a well-formed
node yields a well-formed node, introduces no new keys, and is a fixed point
of filtering. -/
theorem filt_spec_aux :
    ∀ fuel : Nat, ∀ (es res : List (String × Tree)),
      keysNodup es = true → wfList es = true →
      updateF fuel filtHooks es = some res →
      keysNodup res = true ∧ wfList res = true ∧
      (∀ k, dContains res k = true → dContains es k = true) ∧
      updateF fuel filtHooks res = some res := by
  intro fuel
  induction fuel using Nat.strong_induction_on with
  | _ fuel ihf =>
    intro es
    induction es with
    | nil =>
      intro res _ _ h
      obtain ⟨pass, hp, hres⟩ := updateF_some_pass _ _ _ _ h
      rw [filtPass_nil] at hp
      obtain rfl : ([] : List ((String × Tree) × Bool)) = pass := Option.some_inj.mp hp
      have hres2 : ([] : List (String × Tree)) = res := hres
      subst hres2
      exact ⟨rfl, rfl, fun k hk => hk, h⟩
    | cons p rest ihes =>
      obtain ⟨k, v⟩ := p
      intro res hknd hwf h
      simp only [keysNodup, Bool.and_eq_true, Bool.not_eq_true'] at hknd
      simp only [wfList, Bool.and_eq_true] at hwf
      obtain ⟨pass, hp, hres⟩ := updateF_some_pass _ _ _ _ h
      -- keys of a pass over a dict not containing `k` never collide with `k`
      have tailKeysNe : ∀ (fl : Nat) (m : List (String × Tree))
          (tl2 : List ((String × Tree) × Bool)),
          updatePassF fl filtHooks m = some tl2 → dContains m k = false →
          ∀ e ∈ tl2, e.1.1 ≠ k := by
        intro fl m tl2 htl2 hnc e he hek
        have htr := updatePassF_keys fl filtHooks m tl2 htl2
        have hmem : e.1.1 ∈ m.map Prod.fst := by
          rw [← htr]
          exact List.mem_map_of_mem _ he
        rw [← (dContains_iff_mem_keys m e.1.1)] at hmem
        rw [hek] at hmem
        simp [hnc] at hmem
      cases v with
      | leaf pv =>
        rw [filtPass_cons_leaf] at hp
        rcases htl : updatePassF fuel filtHooks rest with _ | tlpass
        · rw [htl] at hp; simp at hp
        · rw [htl] at hp
          have hp2 : some (((k, Tree.leaf pv), decide (pv = 0)) :: tlpass) =
              some pass := hp
          obtain rfl := Option.some_inj.mp hp2
          have hne := tailKeysNe fuel rest tlpass htl hknd.1
          obtain ⟨rknd, rwf, rsub, rid⟩ :=
            ihes (applyMarks tlpass) hknd.2 hwf.2 (updateF_of_pass _ _ _ _ htl)
          by_cases hz : pv = 0
          · -- falsey leaf: marked, deleted after the pass
            rw [← hres]
            have hm : decide (pv = 0) = true := by simp [hz]
            rw [hm, applyMarks_cons_marked]
            exact ⟨rknd, rwf,
              fun k0 hk0 => by
                simp only [dContains, Bool.or_eq_true]
                exact Or.inr (rsub k0 hk0),
              rid⟩
          · -- truthy leaf: kept
            have hm : decide (pv = 0) = false := by simp [hz]
            rw [← hres, hm, applyMarks_cons_unmarked k (Tree.leaf pv) tlpass
              (fun e he _ => hne e he)]
            have hnotin : dContains (applyMarks tlpass) k = false := by
              rcases hb : dContains (applyMarks tlpass) k with _ | _
              · rfl
              · exact absurd (rsub k hb) (by simp [hknd.1])
            refine ⟨?_, ?_, ?_, ?_⟩
            · simp [keysNodup, hnotin, rknd]
            · simp [wfList, Tree.WF, rwf]
            · intro k0 hk0
              simp only [dContains, Bool.or_eq_true, decide_eq_true_eq] at hk0 ⊢
              exact hk0.imp id (rsub k0)
            · -- filtering the result again keeps the leaf and fixes the tail
              obtain ⟨tl2, htl2, hres2⟩ := updateF_some_pass _ _ _ _ rid
              have hne2 := tailKeysNe fuel (applyMarks tlpass) tl2 htl2 hnotin
              rw [updateF, filtPass_cons_leaf, htl2]
              show some (applyMarks (((k, Tree.leaf pv), decide (pv = 0)) :: tl2)) = _
              rw [hm, applyMarks_cons_unmarked k (Tree.leaf pv) tl2
                (fun e he _ => hne2 e he), hres2]
      | node nIn =>
        cases fuel with
        | zero =>
          rw [filtPass_cons_node_zero] at hp
          simp at hp
        | succ f =>
          rw [filtPass_cons_node] at hp
          rcases hin : updatePassF f filtHooks nIn with _ | passInner
          · rw [hin] at hp; simp at hp
          · rw [hin] at hp
            have hp1 : (updatePassF (f + 1) filtHooks rest).map
                (fun tl => ((k, Tree.node (applyMarks passInner)),
                  (applyMarks passInner).isEmpty) :: tl) = some pass := hp
            rcases htl : updatePassF (f + 1) filtHooks rest with _ | tlpass
            · rw [htl] at hp1; simp at hp1
            · rw [htl] at hp1
              have hp2 : some (((k, Tree.node (applyMarks passInner)),
                  (applyMarks passInner).isEmpty) :: tlpass) = some pass := hp1
              obtain rfl := Option.some_inj.mp hp2
              have hne := tailKeysNe (f + 1) rest tlpass htl hknd.1
              obtain ⟨rknd, rwf, rsub, rid⟩ :=
                ihes (applyMarks tlpass) hknd.2 hwf.2 (updateF_of_pass _ _ _ _ htl)
              have hnwf : keysNodup nIn = true ∧ wfList nIn = true := by
                have := hwf.1
                simp only [Tree.WF, Bool.and_eq_true] at this
                exact this
              obtain ⟨iknd, iwf, isub, iid⟩ :=
                ihf f (by omega) nIn (applyMarks passInner) hnwf.1 hnwf.2
                  (updateF_of_pass _ _ _ _ hin)
              rcases hi : applyMarks passInner with _ | ⟨e0, irest⟩
              · -- the recursively filtered node is empty: marked, deleted
                rw [← hres, hi, List.isEmpty_nil, applyMarks_cons_marked]
                exact ⟨rknd, rwf,
                  fun k0 hk0 => by
                    simp only [dContains, Bool.or_eq_true]
                    exact Or.inr (rsub k0 hk0),
                  rid⟩
              · -- nonempty after filtering: kept
                rw [hi] at iknd iwf iid
                rw [← hres, hi]
                have hmf : (e0 :: irest).isEmpty = false := rfl
                rw [hmf, applyMarks_cons_unmarked k (Tree.node (e0 :: irest)) tlpass
                  (fun e he _ => hne e he)]
                have hnotin : dContains (applyMarks tlpass) k = false := by
                  rcases hb : dContains (applyMarks tlpass) k with _ | _
                  · rfl
                  · exact absurd (rsub k hb) (by simp [hknd.1])
                refine ⟨?_, ?_, ?_, ?_⟩
                · simp [keysNodup, hnotin, rknd]
                · simp only [wfList, Bool.and_eq_true]
                  refine ⟨?_, rwf⟩
                  show (Tree.node (e0 :: irest)).WF = true
                  simp only [Tree.WF, Bool.and_eq_true]
                  exact ⟨iknd, iwf⟩
                · intro k0 hk0
                  simp only [dContains, Bool.or_eq_true, decide_eq_true_eq] at hk0 ⊢
                  exact hk0.imp id (rsub k0)
                · obtain ⟨tl2, htl2, hres2⟩ := updateF_some_pass _ _ _ _ rid
                  have hne2 := tailKeysNe (f + 1) (applyMarks tlpass) tl2 htl2 hnotin
                  obtain ⟨tlI, htlI, hresI⟩ := updateF_some_pass _ _ _ _ iid
                  rw [updateF, filtPass_cons_node, htlI]
                  show ((updatePassF (f + 1) filtHooks (applyMarks tlpass)).map
                    (fun tl => ((k, Tree.node (applyMarks tlI)),
                      (applyMarks tlI).isEmpty) :: tl)).map applyMarks = _
                  rw [htl2]
                  show some (applyMarks (((k, Tree.node (applyMarks tlI)),
                    (applyMarks tlI).isEmpty) :: tl2)) = _
                  rw [hresI, hmf, applyMarks_cons_unmarked k
                    (Tree.node (e0 :: irest)) tl2 (fun e he _ => hne2 e he), hres2]

/-- C6: `filt` is idempotent: whenever `filt` completes on a well-formed tree
(enough fuel for its nesting), running it again on the result returns the
result unchanged — `filt(filt(t)) == filt(t)`. -/
theorem filt_idempotent (fuel : Nat) (es res : List (String × Tree))
    (hknd : keysNodup es = true) (hwf : wfList es = true)
    (h : filtF fuel es = some res) :
    filtF fuel res = some res := by
  rw [filtF_eq_updateF] at h ⊢
  exact (filt_spec_aux fuel es res hknd hwf h).2.2.2

theorem filt_idempotent_witness :
    keysNodup [("a", Tree.node []), ("b", Tree.node [("c", Tree.leaf 0)]),
      ("d", Tree.node [("e", Tree.leaf 1)])] = true ∧
    wfList [("a", Tree.node []), ("b", Tree.node [("c", Tree.leaf 0)]),
      ("d", Tree.node [("e", Tree.leaf 1)])] = true ∧
    filtF 3 [("a", Tree.node []), ("b", Tree.node [("c", Tree.leaf 0)]),
      ("d", Tree.node [("e", Tree.leaf 1)])] =
      some [("d", Tree.node [("e", Tree.leaf 1)])] ∧
    filtF 3 [("d", Tree.node [("e", Tree.leaf 1)])] =
      some [("d", Tree.node [("e", Tree.leaf 1)])] :=
  ⟨by decide, by decide,
   by simp [filtF, applyF, updateF, pycopy, updatePassF, applyMarks, is_falsey,
     filtHooks, dDel],
   filt_idempotent 3
     [("a", Tree.node []), ("b", Tree.node [("c", Tree.leaf 0)]),
      ("d", Tree.node [("e", Tree.leaf 1)])]
     [("d", Tree.node [("e", Tree.leaf 1)])] (by decide) (by decide)
     (by simp [filtF, applyF, updateF, pycopy, updatePassF, applyMarks, is_falsey,
       filtHooks, dDel])⟩

/-! ## `sort_by_keys_pattern` lemmas (claim C9) -/

theorem sortInsert_perm (key : α → Int) (x : α) :
    ∀ l : List α, (sortInsert key x l).Perm (x :: l) := by
  intro l
  induction l with
  | nil => exact List.Perm.refl _
  | cons y ys ih =>
    simp only [sortInsert]
    by_cases h : key y < key x
    · rw [if_pos h]
      exact (List.Perm.cons y ih).trans (List.Perm.swap x y ys)
    · rw [if_neg h]

theorem sortedBy_perm (key : α → Int) :
    ∀ l : List α, (sortedBy key l).Perm l := by
  intro l
  induction l with
  | nil => exact List.Perm.refl _
  | cons x xs ih =>
    exact (sortInsert_perm key x (sortedBy key xs)).trans (List.Perm.cons x ih)

theorem mem_sortInsert (key : α → Int) (x a : α) (l : List α) :
    a ∈ sortInsert key x l ↔ a = x ∨ a ∈ l := by
  rw [(sortInsert_perm key x l).mem_iff]
  simp

theorem pairwise_sortInsert (key : α → Int) (x : α) :
    ∀ l : List α, List.Pairwise (fun a b => key a ≤ key b) l →
      List.Pairwise (fun a b => key a ≤ key b) (sortInsert key x l) := by
  intro l
  induction l with
  | nil => intro _; simp [sortInsert]
  | cons y ys ih =>
    intro h
    rw [List.pairwise_cons] at h
    simp only [sortInsert]
    by_cases hlt : key y < key x
    · rw [if_pos hlt, List.pairwise_cons]
      constructor
      · intro b hb
        rcases (mem_sortInsert key x b ys).mp hb with hb1 | hb1
        · exact hb1 ▸ le_of_lt hlt
        · exact h.1 b hb1
      · exact ih h.2
    · rw [if_neg hlt, List.pairwise_cons]
      constructor
      · intro b hb
        rcases List.mem_cons.mp hb with hb1 | hb1
        · exact hb1 ▸ le_of_not_lt hlt
        · exact le_trans (le_of_not_lt hlt) (h.1 b hb1)
      · rw [List.pairwise_cons]
        exact h

theorem sortedBy_pairwise (key : α → Int) :
    ∀ l : List α, List.Pairwise (fun a b => key a ≤ key b) (sortedBy key l) := by
  intro l
  induction l with
  | nil => simp [sortedBy]
  | cons x xs ih => exact pairwise_sortInsert key x (sortedBy key xs) ih

theorem sortInsert_filter_key (key : α → Int) (x : α) (c : Int) :
    ∀ l : List α,
      (sortInsert key x l).filter (fun a => decide (key a = c)) =
        if key x = c then x :: l.filter (fun a => decide (key a = c))
        else l.filter (fun a => decide (key a = c)) := by
  intro l
  induction l with
  | nil =>
    by_cases hx : key x = c <;> simp [sortInsert, hx]
  | cons y ys ih =>
    simp only [sortInsert]
    by_cases hlt : key y < key x
    · rw [if_pos hlt]
      by_cases hx : key x = c
      · have hy : ¬(key y = c) := fun he => absurd (he.trans hx.symm) (ne_of_lt hlt)
        rw [List.filter_cons, if_neg (by simp [hy]), ih, if_pos hx, if_pos hx,
          List.filter_cons, if_neg (by simp [hy])]
      · rw [List.filter_cons, ih, if_neg hx, if_neg hx, List.filter_cons]
    · rw [if_neg hlt]
      by_cases hx : key x = c
      · rw [List.filter_cons, if_pos (by simp [hx]), if_pos hx]
      · rw [List.filter_cons, if_neg (by simp [hx]), if_neg hx]

/-- Stability: entries with any given sort key keep their original relative
order. -/
theorem sortedBy_stable (key : α → Int) (c : Int) :
    ∀ l : List α,
      (sortedBy key l).filter (fun a => decide (key a = c)) =
        l.filter (fun a => decide (key a = c)) := by
  intro l
  induction l with
  | nil => rfl
  | cons x xs ih =>
    show (sortInsert key x (sortedBy key xs)).filter _ = _
    rw [sortInsert_filter_key, List.filter_cons]
    by_cases hx : key x = c
    · rw [if_pos hx, if_pos (by simp [hx]), ih]
    · rw [if_neg hx, if_neg (by simp [hx]), ih]

theorem find?_isNone_iff (m : List (String × α)) (pat : String → Option (List String)) :
    m.find? (fun p => (pat p.1).isNone) = none ↔ ∀ p ∈ m, (pat p.1).isSome = true := by
  rw [List.find?_eq_none]
  constructor
  · intro h p hp
    have := h p hp
    simp only [Bool.not_eq_true, Option.isNone_eq_false_iff] at this
    exact this
  · intro h p hp
    have := h p hp
    simp only [Option.isSome_iff_ne_none] at this
    simp [Option.isNone_iff_eq_none, this]

/-- C9 (amended): `sort_by_keys_pattern` raises iff some key fails to match;
it raises `ValueError(message.format(key=key))` for the first failing key in
iteration order — an error that names the key only when the message template
contains the placeholder, which the default message does not; when every key
matches, the result is the entries stably sorted by the transform of the
captured groups. -/
theorem sort_by_keys_pattern_spec (m : List (String × α))
    (pat : String → Option (List String)) (atm : List String → Int)
    (msg : String) :
    ((∃ e, sort_by_keys_pattern m pat atm msg = .error e) ↔
      ∃ p ∈ m, (pat p.1).isNone = true) ∧
    (∀ p, m.find? (fun p => (pat p.1).isNone) = some p →
      sort_by_keys_pattern m pat atm msg = .error (pyFormatKey msg p.1)) ∧
    ((∀ p ∈ m, (pat p.1).isSome = true) →
      sort_by_keys_pattern m pat atm msg =
        .ok (sortedBy (fun p => ((pat p.1).map atm).getD 0) m) ∧
      (sortedBy (fun p => ((pat p.1).map atm).getD 0) m).Perm m ∧
      List.Pairwise
        (fun a b => ((pat a.1).map atm).getD 0 ≤ ((pat b.1).map atm).getD 0)
        (sortedBy (fun p => ((pat p.1).map atm).getD 0) m) ∧
      (∀ c, (sortedBy (fun p => ((pat p.1).map atm).getD 0) m).filter
          (fun a => decide (((pat a.1).map atm).getD 0 = c)) =
        m.filter (fun a => decide (((pat a.1).map atm).getD 0 = c)))) := by
  refine ⟨?_, ?_, ?_⟩
  · constructor
    · rintro ⟨e, he⟩
      rcases hf : m.find? (fun p => (pat p.1).isNone) with _ | p
      · rw [sort_by_keys_pattern, hf] at he
        simp at he
      · have := List.find?_some hf
        exact ⟨p, List.mem_of_find?_eq_some hf, this⟩
    · rintro ⟨p, hp, hnone⟩
      rcases hf : m.find? (fun p => (pat p.1).isNone) with _ | q
      · rw [find?_isNone_iff] at hf
        have := hf p hp
        rw [Option.isNone_iff_eq_none] at hnone
        rw [hnone] at this
        simp at this
      · exact ⟨pyFormatKey msg q.1, by rw [sort_by_keys_pattern, hf]⟩
  · intro p hp
    rw [sort_by_keys_pattern, hp]
  · intro hall
    have hf : m.find? (fun p => (pat p.1).isNone) = none :=
      (find?_isNone_iff m pat).mpr hall
    refine ⟨by rw [sort_by_keys_pattern, hf], sortedBy_perm _ m,
      sortedBy_pairwise _ m, fun c => sortedBy_stable _ c m⟩

theorem sort_by_keys_pattern_spec_witness :
    (∀ p ∈ [("v2_a", (1 : Int)), ("v10_a", 2)],
      ((fun k => if k = "v2_a" then some ["2"]
                 else if k = "v10_a" then some ["10"] else none) p.1).isSome
        = true) ∧
    sort_by_keys_pattern [("v2_a", (1 : Int)), ("v10_a", 2)]
        (fun k => if k = "v2_a" then some ["2"]
                  else if k = "v10_a" then some ["10"] else none)
        (fun gs => ((gs.headD "").length : Int)) sortDefaultMessage =
      .ok (sortedBy
        (fun p => ((((fun k => if k = "v2_a" then some ["2"]
            else if k = "v10_a" then some ["10"] else none) p.1)).map
          (fun gs => ((gs.headD "").length : Int))).getD 0)
        [("v2_a", (1 : Int)), ("v10_a", 2)]) ∧
    sortedBy
        (fun p => ((((fun k => if k = "v2_a" then some ["2"]
            else if k = "v10_a" then some ["10"] else none) p.1)).map
          (fun gs => ((gs.headD "").length : Int))).getD 0)
        [("v2_a", (1 : Int)), ("v10_a", 2)] =
      [("v2_a", 1), ("v10_a", 2)] :=
  ⟨by decide,
   ((sort_by_keys_pattern_spec [("v2_a", (1 : Int)), ("v10_a", 2)]
      (fun k => if k = "v2_a" then some ["2"]
                else if k = "v10_a" then some ["10"] else none)
      (fun gs => ((gs.headD "").length : Int)) sortDefaultMessage).2.2
      (by decide)).1,
   by decide⟩

/-- C9 counterexample: as stated, the claim is false — with the default
message the raised condition does not carry the offending key: two calls whose
only failing keys differ ("x" vs "y") raise the identical error value. -/
theorem sort_error_same_for_different_keys :
    sort_by_keys_pattern [("x", (1 : Int))] (fun _ => none) (fun _ => 0)
        sortDefaultMessage =
      .error "Match not found when sorting." ∧
    sort_by_keys_pattern [("y", (1 : Int))] (fun _ => none) (fun _ => 0)
        sortDefaultMessage =
      .error "Match not found when sorting." ∧
    "x" ≠ "y" := by
  refine ⟨?_, ?_, by decide⟩ <;> rfl

/-! ## `replace`/`replace_pattern` (claim C10) -/

/-- C10: the loop writes each `Repl`'s destination into the caller's mapping
as it goes (the returned snapshot equals the mapping's final state), and on a
missing source key it stops at that `Repl`, every earlier write remaining
applied to the caller's mapping.  `subst` is the substitution primitive
(`str.replace` for `replace`, `re.sub` for `replace_pattern`). -/
theorem replace_inplace_nonatomic (subst : String → String → String → String) :
    (∀ (rs : List Repl) (m m1 : List (String × String))
        (snap : List (String × String)),
      replaceLoop subst rs m = (m1, .ok snap) → snap = m1) ∧
    (∀ (pre : List Repl) (r : Repl) (post : List Repl)
        (m m1 : List (String × String)),
      replaceLoop subst pre m = (m1, .ok m1) →
      dGet m1 r.src = none →
      replaceLoop subst (pre ++ r :: post) m = (m1, .error r.src)) := by
  constructor
  · intro rs
    induction rs with
    | nil =>
      intro m m1 snap h
      simp only [replaceLoop] at h
      obtain ⟨h1, h2⟩ := Prod.mk.injEq .. ▸ h
      exact (Except.ok.inj h2).symm.trans h1
    | cons r rs ih =>
      intro m m1 snap h
      simp only [replaceLoop] at h
      rcases hg : dGet m r.src with _ | sv
      · rw [hg] at h
        obtain ⟨_, h2⟩ := Prod.mk.injEq .. ▸ h
        exact absurd h2.symm (by simp)
      · rw [hg] at h
        exact ih _ _ _ h
  · intro pre
    induction pre with
    | nil =>
      intro r post m m1 h hmiss
      simp only [replaceLoop] at h
      obtain ⟨h1, _⟩ := Prod.mk.injEq .. ▸ h
      subst h1
      simp only [List.nil_append, replaceLoop, hmiss]
    | cons r0 rs ih =>
      intro r post m m1 h hmiss
      simp only [replaceLoop] at h
      rcases hg : dGet m r0.src with _ | sv
      · rw [hg] at h
        obtain ⟨_, h2⟩ := Prod.mk.injEq .. ▸ h
        exact absurd h2.symm (by simp)
      · rw [hg] at h
        show replaceLoop subst ((r0 :: rs) ++ r :: post) m = (m1, .error r.src)
        simp only [List.cons_append, replaceLoop, hg]
        exact ih r post _ m1 h hmiss

theorem replace_inplace_nonatomic_witness :
    (replaceLoop (fun s _ _ => s) [⟨"a", "b", "foo", "bar"⟩]
        [("a", "foo-1")] =
      ([("a", "foo-1"), ("b", "foo-1")], .ok [("a", "foo-1"), ("b", "foo-1")]) ∧
     dGet [("a", "foo-1"), ("b", "foo-1")] "zz" = none) ∧
    replaceLoop (fun s _ _ => s)
        ([⟨"a", "b", "foo", "bar"⟩] ++ ⟨"zz", "c", "x", "y"⟩ :: [])
        [("a", "foo-1")] =
      ([("a", "foo-1"), ("b", "foo-1")], .error "zz") :=
  ⟨⟨rfl, rfl⟩,
   (replace_inplace_nonatomic (fun s _ _ => s)).2 [⟨"a", "b", "foo", "bar"⟩]
     ⟨"zz", "c", "x", "y"⟩ [] [("a", "foo-1")] [("a", "foo-1"), ("b", "foo-1")]
     rfl rfl⟩

/-! ## Heap lemmas -/

theorem hGet_hSet_self (m : List (Addr × Obj)) (a : Addr) (o : Obj) :
    hGet (hSet m a o) a = some o := by
  induction m with
  | nil => simp [hSet, hGet]
  | cons p rest ih =>
    obtain ⟨a1, o1⟩ := p
    by_cases h : a1 = a <;> simp [hSet, hGet, h, ih]

theorem hGet_hSet_ne (m : List (Addr × Obj)) (a b : Addr) (o : Obj)
    (h : b ≠ a) : hGet (hSet m a o) b = hGet m b := by
  induction m with
  | nil =>
    have hne : a ≠ b := fun he => h he.symm
    simp [hSet, hGet, hne]
  | cons p rest ih =>
    obtain ⟨a1, o1⟩ := p
    by_cases h1 : a1 = a
    · subst h1
      have hne : a1 ≠ b := fun he => h he.symm
      simp [hSet, hGet, hne]
    · by_cases h2 : a1 = b
      · subst h2
        simp [hSet, hGet, h1]
      · simp [hSet, hGet, h1, h2, ih]

theorem hSet_self (m : List (Addr × Obj)) (a : Addr) (o : Obj)
    (h : hGet m a = some o) : hSet m a o = m := by
  induction m with
  | nil => simp [hGet] at h
  | cons p rest ih =>
    obtain ⟨a1, o1⟩ := p
    simp only [hGet] at h
    by_cases h1 : a1 = a
    · rw [if_pos h1] at h
      simp [hSet, h1, Option.some_inj.mp h]
    · rw [if_neg h1] at h
      simp [hSet, h1, ih h]

theorem hGet_append (l1 l2 : List (Addr × Obj)) (a : Addr) :
    hGet (l1 ++ l2) a =
      match hGet l1 a with
      | some o => some o
      | none => hGet l2 a := by
  induction l1 with
  | nil => simp [hGet]
  | cons p rest ih =>
    obtain ⟨a1, o1⟩ := p
    by_cases h : a1 = a <;> simp [hGet, h, ih]

theorem eGet_eSet_self (m : List (String × Addr)) (k : String) (a : Addr) :
    eGet (eSet m k a) k = some a := by
  induction m with
  | nil => simp [eSet, eGet]
  | cons p rest ih =>
    obtain ⟨k1, a1⟩ := p
    by_cases h : k1 = k <;> simp [eSet, eGet, h, ih]

theorem eSet_self (m : List (String × Addr)) (k : String) (a : Addr)
    (h : eGet m k = some a) : eSet m k a = m := by
  induction m with
  | nil => simp [eGet] at h
  | cons p rest ih =>
    obtain ⟨k1, a1⟩ := p
    simp only [eGet] at h
    by_cases h1 : k1 = k
    · rw [if_pos h1] at h
      simp [eSet, h1, Option.some_inj.mp h]
    · rw [if_neg h1] at h
      simp [eSet, h1, ih h]

theorem Heap.get_set_self (h : Heap) (a : Addr) (o : Obj) :
    (h.set a o).get a = some o := hGet_hSet_self h.objs a o

theorem Heap.get_set_ne (h : Heap) (a b : Addr) (o : Obj) (hne : b ≠ a) :
    (h.set a o).get b = h.get b := hGet_hSet_ne h.objs a b o hne

theorem Heap.set_self (h : Heap) (a : Addr) (o : Obj) (hg : h.get a = some o) :
    h.set a o = h := by
  show Heap.mk (hSet h.objs a o) h.next = h
  rw [hSet_self h.objs a o hg]

theorem Heap.next_set (h : Heap) (a : Addr) (o : Obj) :
    (h.set a o).next = h.next := rfl

theorem Heap.next_alloc (h : Heap) (o : Obj) :
    (h.alloc o).1.next = h.next + 1 := rfl

theorem Heap.addr_alloc (h : Heap) (o : Obj) : (h.alloc o).2 = h.next := rfl

theorem Heap.get_alloc_ne (h : Heap) (o : Obj) (a : Addr) (hne : a ≠ h.next) :
    (h.alloc o).1.get a = h.get a := by
  show hGet (h.objs ++ [(h.next, o)]) a = hGet h.objs a
  rw [hGet_append]
  cases hg : hGet h.objs a with
  | some o1 => rfl
  | none => simp [hGet, hne.symm]

theorem hGet_mem (l : List (Addr × Obj)) (a : Addr) (o : Obj)
    (hg : hGet l a = some o) : (a, o) ∈ l := by
  induction l with
  | nil => simp [hGet] at hg
  | cons p rest ih =>
    obtain ⟨a1, o1⟩ := p
    simp only [hGet] at hg
    by_cases h1 : a1 = a
    · rw [if_pos h1] at hg
      exact List.mem_cons.mpr (Or.inl (by rw [h1, Option.some_inj.mp hg]))
    · rw [if_neg h1] at hg
      exact List.mem_cons.mpr (Or.inr (ih hg))

theorem Heap.get_alloc_self (h : Heap) (o : Obj)
    (hwf : ∀ p ∈ h.objs, p.1 < h.next) :
    (h.alloc o).1.get h.next = some o := by
  show hGet (h.objs ++ [(h.next, o)]) h.next = some o
  rw [hGet_append]
  cases hg : hGet h.objs h.next with
  | some o1 => exact absurd (hwf _ (hGet_mem _ _ _ hg)) (by simp)
  | none => simp [hGet]

theorem heapSetEntry_next (h : Heap) (m : Addr) (k : String) (a : Addr) :
    (heapSetEntry h m k a).next = h.next := by
  unfold heapSetEntry
  rcases h.get m with _ | o
  · rfl
  · cases o <;> rfl

theorem heapSetEntry_get_ne (h : Heap) (m : Addr) (k : String) (a b : Addr)
    (hne : b ≠ m) : (heapSetEntry h m k a).get b = h.get b := by
  unfold heapSetEntry
  rcases h.get m with _ | o
  · rfl
  · cases o with
    | node es => exact Heap.get_set_ne h m b _ hne
    | leaf p => rfl

theorem delMarksH_next (h : Heap) (m : Addr) (marks : List String) :
    (delMarksH h m marks).next = h.next := by
  unfold delMarksH
  rcases h.get m with _ | o
  · rfl
  · cases o <;> rfl

theorem delMarksH_get_ne (h : Heap) (m : Addr) (marks : List String) (b : Addr)
    (hne : b ≠ m) : (delMarksH h m marks).get b = h.get b := by
  unfold delMarksH
  rcases h.get m with _ | o
  · rfl
  · cases o with
    | node es => exact Heap.get_set_ne h m b _ hne
    | leaf p => rfl

theorem runLeafHookH_next (hook : LeafHookH) (h : Heap) (a : Addr) (p : Int) :
    h.next ≤ (runLeafHookH hook h a p).1.next := by
  cases hook with
  | hid => exact le_refl _
  | payload f => exact Nat.le_succ _

theorem runLeafHookH_get_lt (hook : LeafHookH) (h : Heap) (a : Addr) (p : Int)
    (b : Addr) (hb : b < h.next) :
    (runLeafHookH hook h a p).1.get b = h.get b := by
  cases hook with
  | hid => rfl
  | payload f => exact Heap.get_alloc_ne h _ b (Nat.ne_of_lt hb)

/-- `next` is monotone through `update` and its entry loop. -/
theorem updateH_mono :
    ∀ fuel : Nat,
      (∀ copying hk h m, h.next ≤ (updateH fuel copying hk h m).next) ∧
      (∀ copying hk (h : Heap) m es marks,
        h.next ≤ (updateEntriesH fuel copying hk h m es marks).1.next) := by
  intro fuel
  induction fuel using Nat.strong_induction_on with
  | _ fuel ih =>
    have hU : ∀ copying hk h m, h.next ≤ (updateH fuel copying hk h m).next := by
      intro copying hk h m
      cases fuel with
      | zero =>
        rw [updateH]
      | succ f =>
        rw [updateH]
        rcases hg : h.get m with _ | o
        · exact le_refl _
        · cases o with
          | node es =>
            exact le_trans ((ih f (by omega)).2 copying hk h m es [])
              (le_of_eq (delMarksH_next
                (updateEntriesH f copying hk h m es []).1 m
                (updateEntriesH f copying hk h m es []).2).symm)
          | leaf p => exact le_refl _
    have hE : ∀ copying hk (h : Heap) m es marks,
        h.next ≤ (updateEntriesH fuel copying hk h m es marks).1.next := by
      intro copying hk h m es
      induction es generalizing h with
      | nil =>
        intro marks
        rw [updateEntriesH]
      | cons e rest ihes =>
        obtain ⟨k, c⟩ := e
        intro marks
        rw [updateEntriesH]
        by_cases hsk : hk.skipKey k = true
        · rw [if_pos hsk]
          exact ihes h marks
        · rw [if_neg hsk]
          rcases hg : h.get c with _ | o
          · exact ihes h marks
          · cases o with
            | node ces =>
              dsimp only
              refine le_trans ?_ (ihes _ marks)
              rw [heapSetEntry_next]
              refine le_trans ?_ (hU copying hk _ _)
              rw [heapSetEntry_next]
              cases copying
              · exact le_refl _
              · exact Nat.le_succ _
            | leaf p =>
              dsimp only
              have hbase : h.next ≤
                  (if copying then
                    runLeafHookH hk.leafFunPre (h.alloc (.leaf p)).1
                      (h.alloc (.leaf p)).2 p
                  else runLeafHookH hk.leafFunPre h c p).1.next := by
                cases copying
                · exact runLeafHookH_next _ _ _ _
                · exact le_trans (Nat.le_succ _)
                    (runLeafHookH_next hk.leafFunPre (h.alloc (.leaf p)).1
                      (h.alloc (.leaf p)).2 p)
              by_cases hs1 : hk.skipLeaf (if copying then
                    runLeafHookH hk.leafFunPre (h.alloc (.leaf p)).1
                      (h.alloc (.leaf p)).2 p
                  else runLeafHookH hk.leafFunPre h c p).2.2 = true
              · rw [if_pos hs1]
                refine le_trans ?_ (ihes _ marks)
                rw [heapSetEntry_next]
                exact hbase
              · rw [if_neg hs1]
                by_cases hs2 : hk.delLeafPre (if copying then
                      runLeafHookH hk.leafFunPre (h.alloc (.leaf p)).1
                        (h.alloc (.leaf p)).2 p
                    else runLeafHookH hk.leafFunPre h c p).2.2 = true
                · rw [if_pos hs2]
                  refine le_trans ?_ (ihes _ (marks ++ [k]))
                  rw [heapSetEntry_next]
                  exact hbase
                · rw [if_neg hs2]
                  by_cases hs3 : hk.delLeaf (if copying then
                        runLeafHookH hk.leafFunPre (h.alloc (.leaf p)).1
                          (h.alloc (.leaf p)).2 p
                      else runLeafHookH hk.leafFunPre h c p).2.2 = true
                  · rw [if_pos hs3]
                    refine le_trans ?_ (ihes _ (marks ++ [k]))
                    rw [heapSetEntry_next]
                    refine le_trans ?_ (runLeafHookH_next _ _ _ _)
                    rw [heapSetEntry_next]
                    exact hbase
                  · rw [if_neg hs3]
                    refine le_trans ?_ (ihes _ marks)
                    rw [heapSetEntry_next]
                    refine le_trans ?_ (runLeafHookH_next _ _ _ _)
                    rw [heapSetEntry_next]
                    exact hbase
    exact ⟨hU, hE⟩

theorem wfNextB_lt {h : Heap} (hw : wfNextB h = true) {a : Addr} {o : Obj}
    (hg : h.get a = some o) : a < h.next :=
  of_decide_eq_true (List.all_eq_true.mp hw _ (hGet_mem h.objs a o hg))

theorem nodupAllB_get {h : Heap} (hn : nodupAllB h = true) {a : Addr}
    {es : List (String × Addr)} (hg : h.get a = some (.node es)) :
    eKeysNodup es = true :=
  List.all_eq_true.mp hn _ (hGet_mem h.objs a _ hg)

theorem orderedB_get {h : Heap} (ho : orderedB h = true) {a : Addr}
    {es : List (String × Addr)} (hg : h.get a = some (.node es))
    {q : String × Addr} (hq : q ∈ es) : q.2 < a :=
  of_decide_eq_true
    (List.all_eq_true.mp (List.all_eq_true.mp ho _ (hGet_mem h.objs a _ hg)) _ hq)

theorem hSet_mem (m : List (Addr × Obj)) (a : Addr) (o : Obj) :
    ∀ q ∈ hSet m a o, (q.1 = a ∧ q.2 = o) ∨ q ∈ m := by
  induction m with
  | nil =>
    intro q hq
    simp only [hSet, List.mem_singleton] at hq
    subst hq
    exact Or.inl ⟨rfl, rfl⟩
  | cons p rest ih =>
    obtain ⟨a1, o1⟩ := p
    intro q hq
    by_cases h1 : a1 = a
    · rw [hSet, if_pos h1] at hq
      rcases List.mem_cons.mp hq with h2 | h2
      · subst h2
        exact Or.inl ⟨h1, rfl⟩
      · exact Or.inr (List.mem_cons_of_mem _ h2)
    · rw [hSet, if_neg h1] at hq
      rcases List.mem_cons.mp hq with h2 | h2
      · exact Or.inr (List.mem_cons.mpr (Or.inl h2))
      · rcases ih q h2 with h3 | h3
        · exact Or.inl h3
        · exact Or.inr (List.mem_cons_of_mem _ h3)

theorem eSet_mem (m : List (String × Addr)) (k : String) (a : Addr) :
    ∀ q ∈ eSet m k a, q.1 = k ∨ q ∈ m := by
  induction m with
  | nil =>
    intro q hq
    simp only [eSet, List.mem_singleton] at hq
    subst hq
    exact Or.inl rfl
  | cons p rest ih =>
    obtain ⟨k1, a1⟩ := p
    intro q hq
    by_cases h1 : k1 = k
    · rw [eSet, if_pos h1] at hq
      rcases List.mem_cons.mp hq with h2 | h2
      · subst h2
        exact Or.inl h1
      · exact Or.inr (List.mem_cons_of_mem _ h2)
    · rw [eSet, if_neg h1] at hq
      rcases List.mem_cons.mp hq with h2 | h2
      · exact Or.inr (List.mem_cons.mpr (Or.inl h2))
      · rcases ih q h2 with h3 | h3
        · exact Or.inl h3
        · exact Or.inr (List.mem_cons_of_mem _ h3)

theorem eDel_mem (m : List (String × Addr)) (k : String) :
    ∀ q ∈ eDel m k, q ∈ m := by
  induction m with
  | nil => intro q hq; simp [eDel] at hq
  | cons p rest ih =>
    obtain ⟨k1, a1⟩ := p
    intro q hq
    by_cases h1 : k1 = k
    · rw [eDel, if_pos h1] at hq
      exact List.mem_cons_of_mem _ hq
    · rw [eDel, if_neg h1] at hq
      rcases List.mem_cons.mp hq with h2 | h2
      · exact List.mem_cons.mpr (Or.inl h2)
      · exact List.mem_cons_of_mem _ (ih q h2)

theorem eKeysNodup_cons {k1 : String} {a1 : Addr} {rest : List (String × Addr)} :
    eKeysNodup ((k1, a1) :: rest) = true ↔
      (∀ q ∈ rest, q.1 ≠ k1) ∧ eKeysNodup rest = true := by
  simp only [eKeysNodup, Bool.and_eq_true, Bool.not_eq_true', List.any_eq_false,
    decide_eq_true_eq]

theorem eKeysNodup_eSet (m : List (String × Addr)) (k : String) (a : Addr)
    (h : eKeysNodup m = true) : eKeysNodup (eSet m k a) = true := by
  induction m with
  | nil => rfl
  | cons p rest ih =>
    obtain ⟨k1, a1⟩ := p
    obtain ⟨hany, hnd⟩ := eKeysNodup_cons.mp h
    by_cases h1 : k1 = k
    · rw [eSet, if_pos h1]
      exact eKeysNodup_cons.mpr ⟨hany, hnd⟩
    · rw [eSet, if_neg h1]
      refine eKeysNodup_cons.mpr ⟨?_, ih hnd⟩
      intro q hq
      rcases eSet_mem rest k a q hq with h2 | h2
      · rw [h2]
        exact fun he => h1 he.symm
      · exact hany q h2

theorem eKeysNodup_eDel (m : List (String × Addr)) (k : String)
    (h : eKeysNodup m = true) : eKeysNodup (eDel m k) = true := by
  induction m with
  | nil => rfl
  | cons p rest ih =>
    obtain ⟨k1, a1⟩ := p
    obtain ⟨hany, hnd⟩ := eKeysNodup_cons.mp h
    by_cases h1 : k1 = k
    · rw [eDel, if_pos h1]
      exact hnd
    · rw [eDel, if_neg h1]
      exact eKeysNodup_cons.mpr ⟨fun q hq => hany q (eDel_mem rest k q hq), ih hnd⟩

theorem foldl_eDel_nodup (marks : List String) (es : List (String × Addr))
    (h : eKeysNodup es = true) :
    eKeysNodup (marks.foldl (fun es k => eDel es k) es) = true := by
  induction marks generalizing es with
  | nil => exact h
  | cons m0 rest ih =>
    rw [List.foldl_cons]
    exact ih _ (eKeysNodup_eDel _ _ h)

theorem eKeysNodup_append_cons {done : List (String × Addr)} {k : String}
    {c : Addr} {rest : List (String × Addr)}
    (h : eKeysNodup (done ++ (k, c) :: rest) = true) : eGet done k = none := by
  induction done with
  | nil => rfl
  | cons p d ih =>
    obtain ⟨k1, a1⟩ := p
    rw [List.cons_append] at h
    obtain ⟨hany, hnd⟩ := eKeysNodup_cons.mp h
    have hk1 : k ≠ k1 :=
      hany (k, c) (List.mem_append.mpr (Or.inr (List.mem_cons_self _ _)))
    rw [eGet, if_neg (fun he => hk1 he.symm)]
    exact ih hnd

theorem eSet_append_cons {done : List (String × Addr)} (k : String) (c a : Addr)
    (rest : List (String × Addr)) (h : eGet done k = none) :
    eSet (done ++ (k, c) :: rest) k a = done ++ (k, a) :: rest := by
  induction done with
  | nil =>
    rw [List.nil_append, List.nil_append, eSet, if_pos rfl]
  | cons p d ih =>
    obtain ⟨k1, a1⟩ := p
    rw [eGet] at h
    by_cases h1 : k1 = k
    · rw [if_pos h1] at h
      exact absurd h (by simp)
    · rw [if_neg h1] at h
      rw [List.cons_append, eSet, if_neg h1, ih h, List.cons_append]

/-! ## Heap invariant preservation -/

theorem Heap.set_inv (h : Heap) (a : Addr) (es : List (String × Addr))
    (hi : heapInv h) (ha : a < h.next) (hes : eKeysNodup es = true) :
    heapInv (h.set a (.node es)) := by
  obtain ⟨hw, hn⟩ := hi
  constructor
  · rw [wfNextB, List.all_eq_true]
    intro q hq
    rcases hSet_mem h.objs a _ q hq with h1 | h1
    · exact decide_eq_true (show q.1 < h.next by rw [h1.1]; exact ha)
    · exact List.all_eq_true.mp hw _ h1
  · rw [nodupAllB, List.all_eq_true]
    intro q hq
    rcases hSet_mem h.objs a _ q hq with h1 | h1
    · rw [h1.2]
      exact hes
    · exact List.all_eq_true.mp hn _ h1

theorem Heap.alloc_inv (h : Heap) (o : Obj) (hi : heapInv h)
    (ho : match o with | .node es => eKeysNodup es = true | .leaf _ => True) :
    heapInv (h.alloc o).1 := by
  obtain ⟨hw, hn⟩ := hi
  constructor
  · rw [wfNextB, List.all_eq_true]
    intro q hq
    rcases List.mem_append.mp hq with h1 | h1
    · have h2 := of_decide_eq_true (List.all_eq_true.mp hw _ h1)
      exact decide_eq_true (Nat.lt_succ_of_lt h2)
    · have h2 : q = (h.next, o) := by simpa using h1
      rw [h2]
      exact decide_eq_true (Nat.lt_succ_self h.next)
  · rw [nodupAllB, List.all_eq_true]
    intro q hq
    rcases List.mem_append.mp hq with h1 | h1
    · exact List.all_eq_true.mp hn _ h1
    · have h2 : q = (h.next, o) := by simpa using h1
      rw [h2]
      cases o with
      | node es => exact ho
      | leaf p => rfl

theorem heapSetEntry_inv (h : Heap) (m : Addr) (k : String) (a : Addr)
    (hi : heapInv h) : heapInv (heapSetEntry h m k a) := by
  unfold heapSetEntry
  rcases hg : h.get m with _ | o
  · exact hi
  · cases o with
    | node es =>
      exact Heap.set_inv h m _ hi (wfNextB_lt hi.1 hg)
        (eKeysNodup_eSet _ _ _ (nodupAllB_get hi.2 hg))
    | leaf p => exact hi

theorem delMarksH_inv (h : Heap) (m : Addr) (marks : List String)
    (hi : heapInv h) : heapInv (delMarksH h m marks) := by
  unfold delMarksH
  rcases hg : h.get m with _ | o
  · exact hi
  · cases o with
    | node es =>
      exact Heap.set_inv h m _ hi (wfNextB_lt hi.1 hg)
        (foldl_eDel_nodup _ _ (nodupAllB_get hi.2 hg))
    | leaf p => exact hi

theorem runLeafHookH_inv (hook : LeafHookH) (h : Heap) (a : Addr) (p : Int)
    (hi : heapInv h) : heapInv (runLeafHookH hook h a p).1 := by
  cases hook with
  | hid => exact hi
  | payload f => exact Heap.alloc_inv h _ hi True.intro

theorem delMarksH_nil (h : Heap) (m : Addr) : delMarksH h m [] = h := by
  unfold delMarksH
  rcases hg : h.get m with _ | o
  · rfl
  · cases o with
    | node es => exact Heap.set_self h m _ hg
    | leaf p => rfl

/-- `update` (and its entry loop) preserves the heap invariant, for any hooks
and either call mode. -/
theorem updateH_inv :
    ∀ fuel : Nat,
      (∀ copying hk (h : Heap) m, heapInv h →
        heapInv (updateH fuel copying hk h m)) ∧
      (∀ copying hk (h : Heap) m es marks, heapInv h →
        heapInv (updateEntriesH fuel copying hk h m es marks).1) := by
  intro fuel
  induction fuel using Nat.strong_induction_on with
  | _ fuel ih =>
    have hU : ∀ copying hk (h : Heap) m, heapInv h →
        heapInv (updateH fuel copying hk h m) := by
      intro copying hk h m hi
      cases fuel with
      | zero => rw [updateH]; exact hi
      | succ f =>
        rw [updateH]
        rcases hg : h.get m with _ | o
        · exact hi
        · cases o with
          | node es =>
            exact delMarksH_inv _ m _ ((ih f (by omega)).2 copying hk h m es [] hi)
          | leaf p => exact hi
    have hE : ∀ copying hk (h : Heap) m es marks, heapInv h →
        heapInv (updateEntriesH fuel copying hk h m es marks).1 := by
      intro copying hk h m es
      induction es generalizing h with
      | nil => intro marks hi; rw [updateEntriesH]; exact hi
      | cons e rest ihes =>
        obtain ⟨k, c⟩ := e
        intro marks hi
        rw [updateEntriesH]
        by_cases hsk : hk.skipKey k = true
        · rw [if_pos hsk]; exact ihes h marks hi
        · rw [if_neg hsk]
          rcases hg : h.get c with _ | o
          · exact ihes h marks hi
          · cases o with
            | node ces =>
              have hinv1 : heapInv (if copying then h.alloc (.node ces)
                  else (h, c)).1 := by
                cases copying
                · exact hi
                · exact Heap.alloc_inv h _ hi (nodupAllB_get hi.2 hg)
              exact ihes _ marks (heapSetEntry_inv _ m k _
                (hU copying hk _ _ (heapSetEntry_inv _ m k _ hinv1)))
            | leaf p =>
              have hinv1 : heapInv (if copying then
                  runLeafHookH hk.leafFunPre (h.alloc (.leaf p)).1
                    (h.alloc (.leaf p)).2 p
                else runLeafHookH hk.leafFunPre h c p).1 := by
                cases copying
                · exact runLeafHookH_inv _ _ _ _ hi
                · exact runLeafHookH_inv hk.leafFunPre (h.alloc (.leaf p)).1
                    (h.alloc (.leaf p)).2 p (Heap.alloc_inv h _ hi True.intro)
              dsimp only
              generalize hR : (if copying = true then
                  runLeafHookH hk.leafFunPre (h.alloc (.leaf p)).1
                    (h.alloc (.leaf p)).2 p
                else runLeafHookH hk.leafFunPre h c p) = R at hinv1 ⊢
              by_cases hs1 : hk.skipLeaf R.2.2 = true
              · rw [if_pos hs1]
                exact ihes _ marks (heapSetEntry_inv _ m k _ hinv1)
              · rw [if_neg hs1]
                by_cases hs2 : hk.delLeafPre R.2.2 = true
                · rw [if_pos hs2]
                  exact ihes _ _ (heapSetEntry_inv _ m k _ hinv1)
                · rw [if_neg hs2]
                  have hinv2 : heapInv (runLeafHookH hk.leafFun
                      (heapSetEntry R.1 m k R.2.1) R.2.1 R.2.2).1 :=
                    runLeafHookH_inv _ _ _ _ (heapSetEntry_inv _ m k _ hinv1)
                  by_cases hs3 : hk.delLeaf R.2.2 = true
                  · rw [if_pos hs3]
                    exact ihes _ _ (heapSetEntry_inv _ m k _ hinv2)
                  · rw [if_neg hs3]
                    exact ihes _ _ (heapSetEntry_inv _ m k _ hinv2)
    exact ⟨hU, hE⟩

/-- When invoked through `apply` (`copying = true`), `update` writes only to
the container it was handed and to freshly allocated objects: every
pre-existing object other than the container is left untouched, for any
hooks. -/
theorem updateH_frame :
    ∀ fuel : Nat,
      (∀ hk (h : Heap) n b, b < h.next → b ≠ n →
        (updateH fuel true hk h n).get b = h.get b) ∧
      (∀ hk (h : Heap) m es marks b, b < h.next → b ≠ m →
        (updateEntriesH fuel true hk h m es marks).1.get b = h.get b) := by
  intro fuel
  induction fuel using Nat.strong_induction_on with
  | _ fuel ih =>
    have hU : ∀ hk (h : Heap) n b, b < h.next → b ≠ n →
        (updateH fuel true hk h n).get b = h.get b := by
      intro hk h n b hb hbn
      cases fuel with
      | zero => rw [updateH]
      | succ f =>
        rw [updateH]
        rcases hg : h.get n with _ | o
        · rfl
        · cases o with
          | node es =>
            dsimp only
            rw [delMarksH_get_ne _ n _ b hbn]
            exact (ih f (by omega)).2 hk h n es [] b hb hbn
          | leaf p => rfl
    have hE : ∀ hk (h : Heap) m es marks b, b < h.next → b ≠ m →
        (updateEntriesH fuel true hk h m es marks).1.get b = h.get b := by
      intro hk h m es
      induction es generalizing h with
      | nil => intro marks b hb hbm; rw [updateEntriesH]
      | cons e rest ihes =>
        obtain ⟨k, c⟩ := e
        intro marks b hb hbm
        rw [updateEntriesH]
        by_cases hsk : hk.skipKey k = true
        · rw [if_pos hsk]; exact ihes h marks b hb hbm
        · rw [if_neg hsk]
          rcases hg : h.get c with _ | o
          · exact ihes h marks b hb hbm
          · cases o with
            | node ces =>
              dsimp only
              rw [if_pos rfl]
              have h1 : (heapSetEntry (h.alloc (.node ces)).1 m k
                  (h.alloc (.node ces)).2).get b = h.get b := by
                rw [heapSetEntry_get_ne _ m k _ b hbm]
                exact Heap.get_alloc_ne h _ b (Nat.ne_of_lt hb)
              have hb2 : b < (heapSetEntry (h.alloc (.node ces)).1 m k
                  (h.alloc (.node ces)).2).next := by
                rw [heapSetEntry_next, Heap.next_alloc]
                exact Nat.lt_succ_of_lt hb
              have hbn2 : b ≠ (h.alloc (.node ces)).2 := Nat.ne_of_lt hb
              have h2 : (updateH fuel true hk (heapSetEntry
                  (h.alloc (.node ces)).1 m k (h.alloc (.node ces)).2)
                  (h.alloc (.node ces)).2).get b = h.get b := by
                rw [hU hk _ _ b hb2 hbn2]
                exact h1
              have hb3 : b < (updateH fuel true hk (heapSetEntry
                  (h.alloc (.node ces)).1 m k (h.alloc (.node ces)).2)
                  (h.alloc (.node ces)).2).next :=
                lt_of_lt_of_le hb2 ((updateH_mono fuel).1 true hk _ _)
              have h3 : (heapSetEntry (updateH fuel true hk (heapSetEntry
                  (h.alloc (.node ces)).1 m k (h.alloc (.node ces)).2)
                  (h.alloc (.node ces)).2) m k (h.alloc (.node ces)).2).get b =
                  h.get b := by
                rw [heapSetEntry_get_ne _ m k _ b hbm]
                exact h2
              have hb4 : b < (heapSetEntry (updateH fuel true hk (heapSetEntry
                  (h.alloc (.node ces)).1 m k (h.alloc (.node ces)).2)
                  (h.alloc (.node ces)).2) m k (h.alloc (.node ces)).2).next := by
                rw [heapSetEntry_next]
                exact hb3
              exact (ihes _ marks b hb4 hbm).trans h3
            | leaf p =>
              dsimp only
              rw [if_pos rfl]
              have hb1 : b < (h.alloc (.leaf p)).1.next := Nat.lt_succ_of_lt hb
              have h1 : (runLeafHookH hk.leafFunPre (h.alloc (.leaf p)).1
                  (h.alloc (.leaf p)).2 p).1.get b = h.get b := by
                rw [runLeafHookH_get_lt _ _ _ _ b hb1]
                exact Heap.get_alloc_ne h _ b (Nat.ne_of_lt hb)
              have hb2 : b < (runLeafHookH hk.leafFunPre (h.alloc (.leaf p)).1
                  (h.alloc (.leaf p)).2 p).1.next :=
                lt_of_lt_of_le hb1 (runLeafHookH_next _ _ _ _)
              generalize hR : runLeafHookH hk.leafFunPre (h.alloc (.leaf p)).1
                  (h.alloc (.leaf p)).2 p = R at h1 hb2 ⊢
              have h2 : (heapSetEntry R.1 m k R.2.1).get b = h.get b := by
                rw [heapSetEntry_get_ne _ m k _ b hbm]
                exact h1
              have hb3 : b < (heapSetEntry R.1 m k R.2.1).next := by
                rw [heapSetEntry_next]
                exact hb2
              by_cases hs1 : hk.skipLeaf R.2.2 = true
              · rw [if_pos hs1]
                exact (ihes _ marks b hb3 hbm).trans h2
              · rw [if_neg hs1]
                by_cases hs2 : hk.delLeafPre R.2.2 = true
                · rw [if_pos hs2]
                  exact (ihes _ _ b hb3 hbm).trans h2
                · rw [if_neg hs2]
                  have h3 : (runLeafHookH hk.leafFun (heapSetEntry R.1 m k R.2.1)
                      R.2.1 R.2.2).1.get b = h.get b := by
                    rw [runLeafHookH_get_lt _ _ _ _ b hb3]
                    exact h2
                  have hb4 : b < (runLeafHookH hk.leafFun
                      (heapSetEntry R.1 m k R.2.1) R.2.1 R.2.2).1.next :=
                    lt_of_lt_of_le hb3 (runLeafHookH_next _ _ _ _)
                  have h4 : (heapSetEntry (runLeafHookH hk.leafFun
                      (heapSetEntry R.1 m k R.2.1) R.2.1 R.2.2).1 m k
                      (runLeafHookH hk.leafFun (heapSetEntry R.1 m k R.2.1)
                        R.2.1 R.2.2).2.1).get b = h.get b := by
                    rw [heapSetEntry_get_ne _ m k _ b hbm]
                    exact h3
                  have hb5 : b < (heapSetEntry (runLeafHookH hk.leafFun
                      (heapSetEntry R.1 m k R.2.1) R.2.1 R.2.2).1 m k
                      (runLeafHookH hk.leafFun (heapSetEntry R.1 m k R.2.1)
                        R.2.1 R.2.2).2.1).next := by
                    rw [heapSetEntry_next]
                    exact hb4
                  by_cases hs3 : hk.delLeaf R.2.2 = true
                  · rw [if_pos hs3]
                    exact (ihes _ _ b hb5 hbm).trans h4
                  · rw [if_neg hs3]
                    exact (ihes _ _ b hb5 hbm).trans h4
    exact ⟨hU, hE⟩

/-! ## Reading heap trees -/

theorem readTree_zero (h : Heap) (a : Addr) : readTree 0 h a = none := by
  rw [readTree]

theorem readTree_succ (g : Nat) (h : Heap) (a : Addr) :
    readTree (g + 1) h a =
      match h.get a with
      | some (.leaf p) => some (.leaf p)
      | some (.node es) => (readEntries g h es).map Tree.node
      | none => none := by
  rw [readTree]

theorem readEntries_nil (fuel : Nat) (h : Heap) :
    readEntries fuel h [] = some [] := by
  rw [readEntries]

theorem readEntries_cons (fuel : Nat) (h : Heap) (k : String) (c : Addr)
    (rest : List (String × Addr)) :
    readEntries fuel h ((k, c) :: rest) =
      match readTree fuel h c, readEntries fuel h rest with
      | some t, some ts => some ((k, t) :: ts)
      | _, _ => none := by
  rw [readEntries]

theorem readEntries_cons_some {fuel : Nat} {h : Heap} {k : String} {c : Addr}
    {rest : List (String × Addr)} {ts : List (String × Tree)}
    (hr : readEntries fuel h ((k, c) :: rest) = some ts) :
    ∃ t ts', readTree fuel h c = some t ∧ readEntries fuel h rest = some ts' ∧
      ts = (k, t) :: ts' := by
  rw [readEntries_cons] at hr
  cases h1 : readTree fuel h c with
  | none =>
    rw [h1] at hr
    cases h2 : readEntries fuel h rest with
    | none => rw [h2] at hr; exact Option.noConfusion hr
    | some ts2 => rw [h2] at hr; exact Option.noConfusion hr
  | some t =>
    cases h2 : readEntries fuel h rest with
    | none => rw [h1, h2] at hr; exact Option.noConfusion hr
    | some ts' =>
      rw [h1, h2] at hr
      exact ⟨t, ts', rfl, rfl, (Option.some_inj.mp hr).symm⟩

theorem readEntries_cons_mk {fuel : Nat} {h : Heap} {k : String} {c : Addr}
    {rest : List (String × Addr)} {t : Tree} {ts' : List (String × Tree)}
    (ht : readTree fuel h c = some t)
    (hr : readEntries fuel h rest = some ts') :
    readEntries fuel h ((k, c) :: rest) = some ((k, t) :: ts') := by
  rw [readEntries_cons, ht, hr]

theorem readEntries_append_mk {fuel : Nat} {h : Heap}
    {as bs : List (String × Addr)} {ts1 ts2 : List (String × Tree)}
    (h1 : readEntries fuel h as = some ts1)
    (h2 : readEntries fuel h bs = some ts2) :
    readEntries fuel h (as ++ bs) = some (ts1 ++ ts2) := by
  induction as generalizing ts1 with
  | nil =>
    rw [readEntries_nil] at h1
    rw [List.nil_append, ← Option.some_inj.mp h1, List.nil_append]
    exact h2
  | cons e rest ih =>
    obtain ⟨k, c⟩ := e
    obtain ⟨t, ts', ht, hr, hts⟩ := readEntries_cons_some h1
    rw [hts, List.cons_append, List.cons_append]
    exact readEntries_cons_mk ht (ih hr)

theorem readTree_some_succ {fuel : Nat} {h : Heap} {a : Addr} {t : Tree}
    (hr : readTree fuel h a = some t) : ∃ g, fuel = g + 1 := by
  cases fuel with
  | zero => rw [readTree_zero] at hr; exact Option.noConfusion hr
  | succ g => exact ⟨g, rfl⟩

/-- With an `orderedB` heap, reading at `a` only consults addresses at or
below `a`. -/
theorem read_le_agree :
    ∀ fuel : Nat,
      (∀ (h h' : Heap) (a : Addr), orderedB h = true →
        (∀ b, b ≤ a → h'.get b = h.get b) →
        readTree fuel h' a = readTree fuel h a) ∧
      (∀ (h h' : Heap) (es : List (String × Addr)) (B : Addr),
        orderedB h = true →
        (∀ b, b ≤ B → h'.get b = h.get b) →
        (∀ p ∈ es, p.2 ≤ B) →
        readEntries fuel h' es = readEntries fuel h es) := by
  intro fuel
  induction fuel using Nat.strong_induction_on with
  | _ fuel ih =>
    have hT : ∀ (h h' : Heap) (a : Addr), orderedB h = true →
        (∀ b, b ≤ a → h'.get b = h.get b) →
        readTree fuel h' a = readTree fuel h a := by
      intro h h' a hord hagree
      cases fuel with
      | zero => rw [readTree_zero, readTree_zero]
      | succ g =>
        rw [readTree_succ, readTree_succ, hagree a (le_refl a)]
        cases hg : h.get a with
        | none => rfl
        | some o =>
          cases o with
          | leaf p => rfl
          | node es =>
            show (readEntries g h' es).map Tree.node =
              (readEntries g h es).map Tree.node
            rw [(ih g (by omega)).2 h h' es a hord hagree
              (fun p hp => le_of_lt (orderedB_get hord hg hp))]
    have hEn : ∀ (h h' : Heap) (es : List (String × Addr)) (B : Addr),
        orderedB h = true →
        (∀ b, b ≤ B → h'.get b = h.get b) →
        (∀ p ∈ es, p.2 ≤ B) →
        readEntries fuel h' es = readEntries fuel h es := by
      intro h h' es B hord hagree hbound
      induction es with
      | nil => rw [readEntries_nil, readEntries_nil]
      | cons e rest ihes =>
        obtain ⟨k, c⟩ := e
        rw [readEntries_cons, readEntries_cons]
        have h1 : readTree fuel h' c = readTree fuel h c :=
          hT h h' c hord (fun b hb =>
            hagree b (le_trans hb (hbound (k, c) (List.mem_cons_self _ _))))
        rw [h1, ihes (fun p hp => hbound p (List.mem_cons_of_mem _ hp))]
    exact ⟨hT, hEn⟩

/-! ## Default-hook reductions -/

theorem dh_not_skipKey (k : String) : ¬(defaultHooksH.skipKey k = true) :=
  fun hh => Bool.noConfusion hh

theorem dh_not_skipLeaf (p : Int) : ¬(defaultHooksH.skipLeaf p = true) :=
  fun hh => Bool.noConfusion hh

theorem dh_not_delLeafPre (p : Int) : ¬(defaultHooksH.delLeafPre p = true) :=
  fun hh => Bool.noConfusion hh

theorem dh_not_delLeaf (p : Int) : ¬(defaultHooksH.delLeaf p = true) :=
  fun hh => Bool.noConfusion hh

theorem dh_leafFunPre : defaultHooksH.leafFunPre = .hid := rfl

theorem dh_leafFun : defaultHooksH.leafFun = .hid := rfl

theorem runLeafHookH_hid (h : Heap) (a : Addr) (p : Int) :
    runLeafHookH .hid h a p = (h, a, p) := rfl

theorem eKeysNodup_valchange (done : List (String × Addr)) (k : String)
    (c a : Addr) (rest : List (String × Addr)) :
    eKeysNodup (done ++ (k, c) :: rest) = eKeysNodup (done ++ (k, a) :: rest) := by
  induction done with
  | nil => rfl
  | cons p d ih =>
    obtain ⟨k1, a1⟩ := p
    rw [List.cons_append, List.cons_append]
    simp only [eKeysNodup, List.any_append, List.any_cons]
    rw [ih]

/-- One step of the default-hook entry loop on a leaf child: allocate the leaf
copy and store its address under `k`; the second store is a no-op. -/
theorem uEH_step_leaf (fuel : Nat) (h : Heap) (m : Addr) (k : String) (c : Addr)
    (rest done : List (String × Addr)) (marks : List String) (p : Int)
    (hgm : h.get m = some (.node (done ++ (k, c) :: rest)))
    (hdk : eGet done k = none)
    (hg : h.get c = some (.leaf p))
    (hmlt : m < h.next) :
    updateEntriesH fuel true defaultHooksH h m ((k, c) :: rest) marks =
      updateEntriesH fuel true defaultHooksH
        ((h.alloc (.leaf p)).1.set m (.node (done ++ (k, h.next) :: rest))) m
        rest marks := by
  have hmne : m ≠ h.next := Nat.ne_of_lt hmlt
  have hA1m : (h.alloc (.leaf p)).1.get m =
      some (.node (done ++ (k, c) :: rest)) := by
    rw [Heap.get_alloc_ne h _ m hmne]
    exact hgm
  have hH2 : heapSetEntry (h.alloc (.leaf p)).1 m k h.next =
      (h.alloc (.leaf p)).1.set m (.node (done ++ (k, h.next) :: rest)) := by
    unfold heapSetEntry
    rw [hA1m]
    dsimp only
    rw [eSet_append_cons k c h.next rest hdk]
  have hH4 : heapSetEntry
      ((h.alloc (.leaf p)).1.set m (.node (done ++ (k, h.next) :: rest))) m k
      h.next =
      (h.alloc (.leaf p)).1.set m (.node (done ++ (k, h.next) :: rest)) := by
    unfold heapSetEntry
    rw [Heap.get_set_self]
    dsimp only
    rw [eSet_append_cons k h.next h.next rest hdk]
    exact Heap.set_self _ m _ (Heap.get_set_self _ m _)
  rw [updateEntriesH]
  rw [if_neg (dh_not_skipKey k)]
  rw [hg]
  dsimp only
  rw [if_pos rfl]
  rw [Heap.addr_alloc]
  rw [dh_leafFunPre, runLeafHookH_hid]
  dsimp only
  rw [if_neg (dh_not_skipLeaf p), if_neg (dh_not_delLeafPre p)]
  rw [dh_leafFun, runLeafHookH_hid]
  dsimp only
  rw [if_neg (dh_not_delLeaf p)]
  rw [hH2, hH4]

/-- One step of the default-hook entry loop on a node child: allocate the
shallow copy, store its address under `k`, recurse into the copy; the
post-recursion store is a no-op. -/
theorem uEH_step_node (fuel : Nat) (h : Heap) (m : Addr) (k : String) (c : Addr)
    (rest done : List (String × Addr)) (marks : List String)
    (ces : List (String × Addr))
    (hgm : h.get m = some (.node (done ++ (k, c) :: rest)))
    (hdk : eGet done k = none)
    (hg : h.get c = some (.node ces))
    (hmlt : m < h.next) :
    updateEntriesH fuel true defaultHooksH h m ((k, c) :: rest) marks =
      updateEntriesH fuel true defaultHooksH
        (updateH fuel true defaultHooksH
          ((h.alloc (.node ces)).1.set m (.node (done ++ (k, h.next) :: rest)))
          h.next) m rest marks := by
  have hmne : m ≠ h.next := Nat.ne_of_lt hmlt
  have hA1m : (h.alloc (.node ces)).1.get m =
      some (.node (done ++ (k, c) :: rest)) := by
    rw [Heap.get_alloc_ne h _ m hmne]
    exact hgm
  have hH2 : heapSetEntry (h.alloc (.node ces)).1 m k h.next =
      (h.alloc (.node ces)).1.set m (.node (done ++ (k, h.next) :: rest)) := by
    unfold heapSetEntry
    rw [hA1m]
    dsimp only
    rw [eSet_append_cons k c h.next rest hdk]
  have hfrm := (updateH_frame fuel).1 defaultHooksH
    ((h.alloc (.node ces)).1.set m (.node (done ++ (k, h.next) :: rest)))
    h.next m (Nat.lt_succ_of_lt hmlt) hmne
  have hH4 : heapSetEntry
      (updateH fuel true defaultHooksH
        ((h.alloc (.node ces)).1.set m (.node (done ++ (k, h.next) :: rest)))
        h.next) m k h.next =
      updateH fuel true defaultHooksH
        ((h.alloc (.node ces)).1.set m (.node (done ++ (k, h.next) :: rest)))
        h.next := by
    unfold heapSetEntry
    rw [hfrm, Heap.get_set_self]
    dsimp only
    rw [eSet_append_cons k h.next h.next rest hdk]
    refine Heap.set_self _ m _ ?_
    rw [hfrm]
    exact Heap.get_set_self _ m _
  rw [updateEntriesH]
  rw [if_neg (dh_not_skipKey k)]
  rw [hg]
  dsimp only
  rw [if_pos rfl]
  rw [Heap.addr_alloc]
  rw [hH2, hH4]

/-- The all-default `update` pass invoked through `apply` rebuilds, inside the
fresh container, a deep copy of what its entry list denoted: the loop leaves
the mark list unchanged, and the container ends up holding entries whose
values read back as the original trees — stably under any later heap growth
above the call's frame. -/
theorem update_defaults_master :
    ∀ fuel : Nat,
      (∀ (es : List (String × Addr)) (h : Heap) (m : Addr)
          (done : List (String × Addr)) (ds ts : List (String × Tree))
          (marks : List String) (D : Addr),
        heapInv h → m < D → D ≤ h.next →
        h.get m = some (.node (done ++ es)) →
        (∀ h'' : Heap, (∀ b, D ≤ b → b < h.next → h''.get b = h.get b) →
          readEntries fuel h'' done = some ds) →
        (∀ h'' : Heap, (∀ b, b < h.next → b ≠ m → h''.get b = h.get b) →
          readEntries fuel h'' es = some ts) →
        (updateEntriesH fuel true defaultHooksH h m es marks).2 = marks ∧
        ∃ done',
          (updateEntriesH fuel true defaultHooksH h m es marks).1.get m =
            some (.node done') ∧
          ∀ h'' : Heap,
            (∀ b, D ≤ b →
              b < (updateEntriesH fuel true defaultHooksH h m es marks).1.next →
              h''.get b =
                (updateEntriesH fuel true defaultHooksH h m es marks).1.get b) →
            readEntries fuel h'' done' = some (ds ++ ts)) ∧
      (∀ (h : Heap) (n : Addr) (ces : List (String × Addr))
          (ts : List (String × Tree)),
        heapInv h →
        h.get n = some (.node ces) →
        (∀ h'' : Heap, (∀ b, b < h.next → b ≠ n → h''.get b = h.get b) →
          readEntries fuel h'' ces = some ts) →
        ∃ es',
          (updateH (fuel + 1) true defaultHooksH h n).get n =
            some (.node es') ∧
          ∀ h'' : Heap,
            (∀ b, h.next ≤ b →
              b < (updateH (fuel + 1) true defaultHooksH h n).next →
              h''.get b = (updateH (fuel + 1) true defaultHooksH h n).get b) →
            readEntries fuel h'' es' = some ts) := by
  intro fuel
  induction fuel using Nat.strong_induction_on with
  | _ fuel ih =>
    have hME : ∀ (es : List (String × Addr)) (h : Heap) (m : Addr)
        (done : List (String × Addr)) (ds ts : List (String × Tree))
        (marks : List String) (D : Addr),
        heapInv h → m < D → D ≤ h.next →
        h.get m = some (.node (done ++ es)) →
        (∀ h'' : Heap, (∀ b, D ≤ b → b < h.next → h''.get b = h.get b) →
          readEntries fuel h'' done = some ds) →
        (∀ h'' : Heap, (∀ b, b < h.next → b ≠ m → h''.get b = h.get b) →
          readEntries fuel h'' es = some ts) →
        (updateEntriesH fuel true defaultHooksH h m es marks).2 = marks ∧
        ∃ done',
          (updateEntriesH fuel true defaultHooksH h m es marks).1.get m =
            some (.node done') ∧
          ∀ h'' : Heap,
            (∀ b, D ≤ b →
              b < (updateEntriesH fuel true defaultHooksH h m es marks).1.next →
              h''.get b =
                (updateEntriesH fuel true defaultHooksH h m es marks).1.get b) →
            readEntries fuel h'' done' = some (ds ++ ts) := by
      intro es
      induction es with
      | nil =>
        intro h m done ds ts marks D hi hmD hDn hgm hdone hstab
        have hts : readEntries fuel h [] = some ts := hstab h (fun b _ _ => rfl)
        rw [readEntries_nil] at hts
        have hts0 : ts = [] := (Option.some_inj.mp hts).symm
        rw [updateEntriesH]
        refine ⟨rfl, done, ?_, ?_⟩
        · rw [List.append_nil] at hgm
          exact hgm
        · intro h'' hfr
          rw [hts0, List.append_nil]
          exact hdone h'' (fun b hDb hbn => hfr b hDb hbn)
      | cons e rest ihes =>
        obtain ⟨k, c⟩ := e
        intro h m done ds ts marks D hi hmD hDn hgm hdone hstab
        have hts : readEntries fuel h ((k, c) :: rest) = some ts :=
          hstab h (fun b _ _ => rfl)
        obtain ⟨t, ts_rest, htc, htr, hts_eq⟩ := readEntries_cons_some hts
        obtain ⟨g, rfl⟩ := readTree_some_succ htc
        have hmlt : m < h.next := wfNextB_lt hi.1 hgm
        have hmne : m ≠ h.next := Nat.ne_of_lt hmlt
        have hdk : eGet done k = none :=
          eKeysNodup_append_cons (nodupAllB_get hi.2 hgm)
        have hwfh : ∀ q ∈ h.objs, q.1 < h.next :=
          fun q hq => of_decide_eq_true (List.all_eq_true.mp hi.1 q hq)
        rw [readTree_succ] at htc
        cases hg : h.get c with
        | none =>
          rw [hg] at htc
          exact Option.noConfusion htc
        | some o =>
          rw [hg] at htc
          cases o with
          | leaf p =>
            have ht_leaf : t = .leaf p := (Option.some_inj.mp htc).symm
            have hinvS : heapInv ((h.alloc (.leaf p)).1.set m
                (.node (done ++ (k, h.next) :: rest))) := by
              refine Heap.set_inv _ m _ (Heap.alloc_inv h _ hi True.intro)
                (Nat.lt_succ_of_lt hmlt) ?_
              rw [← eKeysNodup_valchange done k c h.next rest]
              exact nodupAllB_get hi.2 hgm
            have hgetS : ((h.alloc (.leaf p)).1.set m
                (.node (done ++ (k, h.next) :: rest))).get m =
                some (.node ((done ++ [(k, h.next)]) ++ rest)) := by
              rw [List.append_assoc, List.singleton_append]
              exact Heap.get_set_self _ m _
            have hdone2 : ∀ h'' : Heap,
                (∀ b, D ≤ b →
                  b < ((h.alloc (.leaf p)).1.set m
                    (.node (done ++ (k, h.next) :: rest))).next →
                  h''.get b = ((h.alloc (.leaf p)).1.set m
                    (.node (done ++ (k, h.next) :: rest))).get b) →
                readEntries (g + 1) h'' (done ++ [(k, h.next)]) =
                  some (ds ++ [(k, .leaf p)]) := by
              intro h'' hfr
              have hagree : ∀ b, D ≤ b → b < h.next → h''.get b = h.get b := by
                intro b hDb hbn
                rw [hfr b hDb (Nat.lt_succ_of_lt hbn)]
                rw [Heap.get_set_ne _ m b _
                  (fun he => Nat.not_le.mpr hmD (he ▸ hDb))]
                exact Heap.get_alloc_ne h _ b (Nat.ne_of_lt hbn)
              have hgn : h''.get h.next = some (.leaf p) := by
                rw [hfr h.next hDn (Nat.lt_succ_self _)]
                rw [Heap.get_set_ne _ m h.next _ (fun he => hmne he.symm)]
                exact Heap.get_alloc_self h _ hwfh
              refine readEntries_append_mk (hdone h'' hagree) ?_
              refine readEntries_cons_mk ?_ (readEntries_nil _ _)
              rw [readTree_succ, hgn]
            have hstab2 : ∀ h'' : Heap,
                (∀ b, b < ((h.alloc (.leaf p)).1.set m
                    (.node (done ++ (k, h.next) :: rest))).next →
                  b ≠ m →
                  h''.get b = ((h.alloc (.leaf p)).1.set m
                    (.node (done ++ (k, h.next) :: rest))).get b) →
                readEntries (g + 1) h'' rest = some ts_rest := by
              intro h'' hfr
              have hagree : ∀ b, b < h.next → b ≠ m → h''.get b = h.get b := by
                intro b hbn hbm
                rw [hfr b (Nat.lt_succ_of_lt hbn) hbm,
                  Heap.get_set_ne _ m b _ hbm]
                exact Heap.get_alloc_ne h _ b (Nat.ne_of_lt hbn)
              obtain ⟨t', ts', htc', htr', he'⟩ :=
                readEntries_cons_some (hstab h'' hagree)
              rw [hts_eq] at he'
              injection he' with he1 he2
              rw [he2]
              exact htr'
            obtain ⟨hm2, done', hget', hstab'⟩ :=
              ihes ((h.alloc (.leaf p)).1.set m
                  (.node (done ++ (k, h.next) :: rest))) m
                (done ++ [(k, h.next)]) (ds ++ [(k, .leaf p)]) ts_rest marks D
                hinvS hmD (le_trans hDn (Nat.le_succ h.next)) hgetS hdone2 hstab2
            rw [uEH_step_leaf (g + 1) h m k c rest done marks p hgm hdk hg hmlt]
            refine ⟨hm2, done', hget', ?_⟩
            intro h'' hfr
            have hres := hstab' h'' hfr
            rw [List.append_assoc, List.singleton_append] at hres
            rw [hts_eq, ht_leaf]
            exact hres
          | node ces =>
            dsimp only at htc
            cases hrc : readEntries g h ces with
            | none =>
              rw [hrc] at htc
              exact Option.noConfusion htc
            | some ts_c =>
              rw [hrc] at htc
              have ht_node : t = .node ts_c := (Option.some_inj.mp htc).symm
              have hcm : c ≠ m := by
                intro hce
                have hp0 := hstab (h.set m (.leaf 0))
                  (fun b hb hbm => Heap.get_set_ne h m b _ hbm)
                obtain ⟨t0, ts0, htc0, htr0, he0⟩ := readEntries_cons_some hp0
                rw [hce, readTree_succ, Heap.get_set_self] at htc0
                have ht0 : t0 = .leaf 0 := (Option.some_inj.mp htc0).symm
                rw [hts_eq] at he0
                injection he0 with he1 he2
                injection he1 with he1a he1b
                rw [ht_node, ht0] at he1b
                exact Tree.noConfusion he1b
              have hclt : c < h.next := wfNextB_lt hi.1 hg
              have hinvS0 : heapInv ((h.alloc (.node ces)).1.set m
                  (.node (done ++ (k, h.next) :: rest))) := by
                refine Heap.set_inv _ m _
                  (Heap.alloc_inv h _ hi (nodupAllB_get hi.2 hg))
                  (Nat.lt_succ_of_lt hmlt) ?_
                rw [← eKeysNodup_valchange done k c h.next rest]
                exact nodupAllB_get hi.2 hgm
              have hS0get : ((h.alloc (.node ces)).1.set m
                  (.node (done ++ (k, h.next) :: rest))).get h.next =
                  some (.node ces) := by
                rw [Heap.get_set_ne _ m h.next _ (fun he => hmne he.symm)]
                exact Heap.get_alloc_self h _ hwfh
              have hstabc : ∀ h'' : Heap,
                  (∀ b, b < ((h.alloc (.node ces)).1.set m
                      (.node (done ++ (k, h.next) :: rest))).next →
                    b ≠ h.next →
                    h''.get b = ((h.alloc (.node ces)).1.set m
                      (.node (done ++ (k, h.next) :: rest))).get b) →
                  readEntries g h'' ces = some ts_c := by
                intro h'' hfr
                have hagree : ∀ b, b < h.next → b ≠ m → h''.get b = h.get b := by
                  intro b hbn hbm
                  rw [hfr b (Nat.lt_succ_of_lt hbn) (Nat.ne_of_lt hbn),
                    Heap.get_set_ne _ m b _ hbm]
                  exact Heap.get_alloc_ne h _ b (Nat.ne_of_lt hbn)
                obtain ⟨t', ts', htc', htr', he'⟩ :=
                  readEntries_cons_some (hstab h'' hagree)
                rw [hts_eq] at he'
                injection he' with he1 he2
                injection he1 with he1a he1b
                rw [ht_node] at he1b
                rw [← he1b] at htc'
                rw [readTree_succ] at htc'
                have hgc : h''.get c = some (.node ces) := by
                  rw [hagree c hclt hcm]
                  exact hg
                rw [hgc] at htc'
                dsimp only at htc'
                cases hrc' : readEntries g h'' ces with
                | none =>
                  rw [hrc'] at htc'
                  exact Option.noConfusion htc'
                | some ts'' =>
                  rw [hrc'] at htc'
                  have h5 := Option.some_inj.mp htc'
                  injection h5 with h6
                  exact congrArg some h6
              obtain ⟨es_c', hget_nc, hstab_nc⟩ :=
                (ih g (by omega)).2
                  ((h.alloc (.node ces)).1.set m
                    (.node (done ++ (k, h.next) :: rest)))
                  h.next ces ts_c hinvS0 hS0get hstabc
              have hfrm := (updateH_frame (g + 1)).1 defaultHooksH
                ((h.alloc (.node ces)).1.set m
                  (.node (done ++ (k, h.next) :: rest)))
                h.next m (Nat.lt_succ_of_lt hmlt) hmne
              have hinvH3 : heapInv (updateH (g + 1) true defaultHooksH
                  ((h.alloc (.node ces)).1.set m
                    (.node (done ++ (k, h.next) :: rest))) h.next) :=
                (updateH_inv (g + 1)).1 true defaultHooksH _ _ hinvS0
              have hmono3 : ((h.alloc (.node ces)).1.set m
                  (.node (done ++ (k, h.next) :: rest))).next ≤
                  (updateH (g + 1) true defaultHooksH
                    ((h.alloc (.node ces)).1.set m
                      (.node (done ++ (k, h.next) :: rest))) h.next).next :=
                (updateH_mono (g + 1)).1 true defaultHooksH _ _
              have hgetH3 : (updateH (g + 1) true defaultHooksH
                  ((h.alloc (.node ces)).1.set m
                    (.node (done ++ (k, h.next) :: rest))) h.next).get m =
                  some (.node ((done ++ [(k, h.next)]) ++ rest)) := by
                rw [hfrm, List.append_assoc, List.singleton_append]
                exact Heap.get_set_self _ m _
              have hdone2 : ∀ h'' : Heap,
                  (∀ b, D ≤ b →
                    b < (updateH (g + 1) true defaultHooksH
                      ((h.alloc (.node ces)).1.set m
                        (.node (done ++ (k, h.next) :: rest))) h.next).next →
                    h''.get b = (updateH (g + 1) true defaultHooksH
                      ((h.alloc (.node ces)).1.set m
                        (.node (done ++ (k, h.next) :: rest))) h.next).get b) →
                  readEntries (g + 1) h'' (done ++ [(k, h.next)]) =
                    some (ds ++ [(k, .node ts_c)]) := by
                intro h'' hfr
                have hagree : ∀ b, D ≤ b → b < h.next → h''.get b = h.get b := by
                  intro b hDb hbn
                  rw [hfr b hDb (lt_of_lt_of_le (Nat.lt_succ_of_lt hbn) hmono3)]
                  rw [(updateH_frame (g + 1)).1 defaultHooksH _ h.next b
                    (Nat.lt_succ_of_lt hbn) (Nat.ne_of_lt hbn)]
                  rw [Heap.get_set_ne _ m b _
                    (fun he => Nat.not_le.mpr hmD (he ▸ hDb))]
                  exact Heap.get_alloc_ne h _ b (Nat.ne_of_lt hbn)
                have hgn : h''.get h.next = some (.node es_c') := by
                  rw [hfr h.next hDn
                    (lt_of_lt_of_le (Nat.lt_succ_self _) hmono3)]
                  exact hget_nc
                refine readEntries_append_mk (hdone h'' hagree) ?_
                refine readEntries_cons_mk ?_ (readEntries_nil _ _)
                rw [readTree_succ, hgn]
                have hsub : readEntries g h'' es_c' = some ts_c := by
                  refine hstab_nc h'' ?_
                  intro b hb1 hb2
                  exact hfr b (le_trans hDn (le_trans (Nat.le_succ _) hb1)) hb2
                dsimp only
                rw [hsub]
                rfl
              have hstab2 : ∀ h'' : Heap,
                  (∀ b, b < (updateH (g + 1) true defaultHooksH
                      ((h.alloc (.node ces)).1.set m
                        (.node (done ++ (k, h.next) :: rest))) h.next).next →
                    b ≠ m →
                    h''.get b = (updateH (g + 1) true defaultHooksH
                      ((h.alloc (.node ces)).1.set m
                        (.node (done ++ (k, h.next) :: rest))) h.next).get b) →
                  readEntries (g + 1) h'' rest = some ts_rest := by
                intro h'' hfr
                have hagree : ∀ b, b < h.next → b ≠ m → h''.get b = h.get b := by
                  intro b hbn hbm
                  rw [hfr b (lt_of_lt_of_le (Nat.lt_succ_of_lt hbn) hmono3) hbm]
                  rw [(updateH_frame (g + 1)).1 defaultHooksH _ h.next b
                    (Nat.lt_succ_of_lt hbn) (Nat.ne_of_lt hbn)]
                  rw [Heap.get_set_ne _ m b _ hbm]
                  exact Heap.get_alloc_ne h _ b (Nat.ne_of_lt hbn)
                obtain ⟨t', ts', htc', htr', he'⟩ :=
                  readEntries_cons_some (hstab h'' hagree)
                rw [hts_eq] at he'
                injection he' with he1 he2
                rw [he2]
                exact htr'
              obtain ⟨hm2, done', hget', hstab'⟩ :=
                ihes (updateH (g + 1) true defaultHooksH
                    ((h.alloc (.node ces)).1.set m
                      (.node (done ++ (k, h.next) :: rest))) h.next) m
                  (done ++ [(k, h.next)]) (ds ++ [(k, .node ts_c)]) ts_rest
                  marks D hinvH3 hmD
                  (le_trans hDn (le_trans (Nat.le_succ h.next) hmono3))
                  hgetH3 hdone2 hstab2
              rw [uEH_step_node (g + 1) h m k c rest done marks ces hgm hdk hg
                hmlt]
              refine ⟨hm2, done', hget', ?_⟩
              intro h'' hfr
              have hres := hstab' h'' hfr
              rw [List.append_assoc, List.singleton_append] at hres
              rw [hts_eq, ht_node]
              exact hres
    have hMU : ∀ (h : Heap) (n : Addr) (ces : List (String × Addr))
        (ts : List (String × Tree)),
        heapInv h →
        h.get n = some (.node ces) →
        (∀ h'' : Heap, (∀ b, b < h.next → b ≠ n → h''.get b = h.get b) →
          readEntries fuel h'' ces = some ts) →
        ∃ es',
          (updateH (fuel + 1) true defaultHooksH h n).get n =
            some (.node es') ∧
          ∀ h'' : Heap,
            (∀ b, h.next ≤ b →
              b < (updateH (fuel + 1) true defaultHooksH h n).next →
              h''.get b = (updateH (fuel + 1) true defaultHooksH h n).get b) →
            readEntries fuel h'' es' = some ts := by
      intro h n ces ts hi hg hstab
      have hnlt : n < h.next := wfNextB_lt hi.1 hg
      obtain ⟨hmarks, done', hget', hstab'⟩ :=
        hME ces h n [] [] ts [] h.next hi hnlt (le_refl _)
          (by rw [List.nil_append]; exact hg)
          (fun h'' _ => readEntries_nil fuel h'')
          hstab
      have hstep : updateH (fuel + 1) true defaultHooksH h n =
          (updateEntriesH fuel true defaultHooksH h n ces []).1 := by
        rw [updateH, hg]
        dsimp only
        rw [hmarks, delMarksH_nil]
      rw [hstep]
      refine ⟨done', hget', ?_⟩
      intro h'' hfr
      have hres := hstab' h'' hfr
      rw [List.nil_append] at hres
      exact hres
    exact ⟨hME, hMU⟩

/-- C2 (amended): `apply` never mutates any object that existed before the
call, for every hook set: `dict(copy(mapping))` copies the root, each visited
sub-Node is shallow-copied before being descended into and each Leaf is copied
before the wrapped pre-hooks observe it, so all writes land on the fresh
copies.  (For `update` called directly this fails — see the counterexample:
`update` rebinds entries of the very Node objects it was handed.) -/
theorem apply_never_mutates_input (fuel : Nat) (hk : HooksH) (h : Heap)
    (m b : Addr) (hb : b < h.next) :
    (applyH fuel hk h m).1.get b = h.get b := by
  unfold applyH
  rcases hg : h.get m with _ | o
  · rfl
  · cases o with
    | node es =>
      dsimp only
      have h1 : (((h.alloc (.node es)).1.alloc (.node es)).1).get b = h.get b := by
        rw [Heap.get_alloc_ne (h.alloc (.node es)).1 _ b
          (Nat.ne_of_lt (Nat.lt_succ_of_lt hb))]
        exact Heap.get_alloc_ne h _ b (Nat.ne_of_lt hb)
      exact ((updateH_frame fuel).1 hk _ _ b
        (Nat.lt_succ_of_lt (Nat.lt_succ_of_lt hb))
        (Nat.ne_of_lt (Nat.lt_succ_of_lt hb))).trans h1
    | leaf p => rfl

theorem apply_never_mutates_input_witness :
    (applyH 2 defaultHooksH ⟨[(0, .leaf 7), (1, .node [("x", 0)])], 2⟩ 1).1.get 0 =
      (⟨[(0, .leaf 7), (1, .node [("x", 0)])], 2⟩ : Heap).get 0 :=
  apply_never_mutates_input 2 defaultHooksH
    ⟨[(0, .leaf 7), (1, .node [("x", 0)])], 2⟩ 1 0 (by decide)

/-- C2 counterexample: as stated, the claim is false for `update` — with a
leaf hook, `update` on the root at address 0 rewrites the entry of the
sub-Node object at address 1 in place (no copy is made), so the sub-tree
reachable from the original input changes from `{"b": 1}` to `{"b": 2}`. -/
theorem update_mutates_aliased_subnode :
    readTree 3
      (⟨[(0, .node [("a", 1)]), (1, .node [("b", 2)]), (2, .leaf 1)], 3⟩ : Heap)
      1 = some (.node [("b", .leaf 1)]) ∧
    readTree 3
      (updateH 2 false
        ⟨fun _ => false, .hid, fun _ => false, fun _ => false,
          .payload (fun p => p + 1), fun _ => false⟩
        ⟨[(0, .node [("a", 1)]), (1, .node [("b", 2)]), (2, .leaf 1)], 3⟩ 0)
      1 = some (.node [("b", .leaf 2)]) := by
  constructor
  · simp [readTree, readEntries, Heap.get, hGet]
  · simp [updateH, updateEntriesH, runLeafHookH, heapSetEntry, delMarksH,
      Heap.get, Heap.set, Heap.alloc, hGet, hSet, eSet, eDel,
      readTree, readEntries]

/-- C7: with all hooks at their defaults, `apply(t, ...)` returns a fresh
container (a different address from the input's), whose deep value equals the
input's, and the input is left unchanged — over any well-formed, acyclic
(`orderedB`) heap with enough read fuel for the tree's depth. -/
theorem apply_noop_deep_equal (g : Nat) (h : Heap) (m : Addr)
    (ts : List (String × Tree))
    (hw : wfNextB h = true) (hn : nodupAllB h = true) (ho : orderedB h = true)
    (hread : readTree (g + 1) h m = some (.node ts)) :
    (applyH (g + 1) defaultHooksH h m).2 ≠ m ∧
    readTree (g + 1) (applyH (g + 1) defaultHooksH h m).1
      (applyH (g + 1) defaultHooksH h m).2 = some (.node ts) ∧
    readTree (g + 1) (applyH (g + 1) defaultHooksH h m).1 m =
      some (.node ts) := by
  have hgm : ∃ es, h.get m = some (.node es) := by
    have h2 := hread
    rw [readTree_succ] at h2
    cases hg : h.get m with
    | none => rw [hg] at h2; exact Option.noConfusion h2
    | some o =>
      cases o with
      | leaf p =>
        rw [hg] at h2
        exact Tree.noConfusion (Option.some_inj.mp h2)
      | node es => exact ⟨es, rfl⟩
  obtain ⟨es, hgme⟩ := hgm
  have hts : readEntries g h es = some ts := by
    have h2 := hread
    rw [readTree_succ, hgme] at h2
    dsimp only at h2
    cases hrc : readEntries g h es with
    | none => rw [hrc] at h2; exact Option.noConfusion h2
    | some ts' =>
      rw [hrc] at h2
      have h5 := Option.some_inj.mp h2
      injection h5 with h6
      exact congrArg some h6
  have hmlt : m < h.next := wfNextB_lt hw hgme
  have hinv1 : heapInv (h.alloc (.node es)).1 :=
    Heap.alloc_inv h _ ⟨hw, hn⟩ (nodupAllB_get hn hgme)
  have hinv2 : heapInv ((h.alloc (.node es)).1.alloc (.node es)).1 :=
    Heap.alloc_inv _ _ hinv1 (nodupAllB_get hn hgme)
  have hwf1 : ∀ q ∈ (h.alloc (.node es)).1.objs, q.1 < (h.alloc (.node es)).1.next :=
    fun q hq => of_decide_eq_true (List.all_eq_true.mp hinv1.1 q hq)
  have hg2 : ((h.alloc (.node es)).1.alloc (.node es)).1.get
      ((h.alloc (.node es)).1.alloc (.node es)).2 = some (.node es) :=
    Heap.get_alloc_self (h.alloc (.node es)).1 _ hwf1
  have hstab0 : ∀ h'' : Heap,
      (∀ b, b < ((h.alloc (.node es)).1.alloc (.node es)).1.next →
        b ≠ ((h.alloc (.node es)).1.alloc (.node es)).2 →
        h''.get b = ((h.alloc (.node es)).1.alloc (.node es)).1.get b) →
      readEntries g h'' es = some ts := by
    intro h'' hfr
    have hagree : ∀ b, b ≤ m → h''.get b = h.get b := by
      intro b hbm2
      have hblt : b < h.next := lt_of_le_of_lt hbm2 hmlt
      rw [hfr b (Nat.lt_succ_of_lt (Nat.lt_succ_of_lt hblt))
        (Nat.ne_of_lt (Nat.lt_succ_of_lt hblt))]
      rw [Heap.get_alloc_ne (h.alloc (.node es)).1 _ b
        (Nat.ne_of_lt (Nat.lt_succ_of_lt hblt))]
      exact Heap.get_alloc_ne h _ b (Nat.ne_of_lt hblt)
    rw [(read_le_agree g).2 h h'' es m ho hagree
      (fun p hp => le_of_lt (orderedB_get ho hgme hp))]
    exact hts
  obtain ⟨es', hget', hstab'⟩ :=
    (update_defaults_master g).2 ((h.alloc (.node es)).1.alloc (.node es)).1
      ((h.alloc (.node es)).1.alloc (.node es)).2 es ts hinv2 hg2 hstab0
  have happly : applyH (g + 1) defaultHooksH h m =
      (updateH (g + 1) true defaultHooksH
        ((h.alloc (.node es)).1.alloc (.node es)).1
        ((h.alloc (.node es)).1.alloc (.node es)).2,
       ((h.alloc (.node es)).1.alloc (.node es)).2) := by
    unfold applyH
    rw [hgme]
  rw [happly]
  refine ⟨(Nat.ne_of_lt (Nat.lt_succ_of_lt hmlt)).symm, ?_, ?_⟩
  · rw [readTree_succ, hget']
    dsimp only
    rw [hstab' (updateH (g + 1) true defaultHooksH
      ((h.alloc (.node es)).1.alloc (.node es)).1
      ((h.alloc (.node es)).1.alloc (.node es)).2) (fun b _ _ => rfl)]
    rfl
  · have hagreeM : ∀ b, b ≤ m →
        (updateH (g + 1) true defaultHooksH
          ((h.alloc (.node es)).1.alloc (.node es)).1
          ((h.alloc (.node es)).1.alloc (.node es)).2).get b = h.get b := by
      intro b hbm2
      have hblt : b < h.next := lt_of_le_of_lt hbm2 hmlt
      rw [(updateH_frame (g + 1)).1 defaultHooksH
        ((h.alloc (.node es)).1.alloc (.node es)).1
        ((h.alloc (.node es)).1.alloc (.node es)).2 b
        (Nat.lt_succ_of_lt (Nat.lt_succ_of_lt hblt))
        (Nat.ne_of_lt (Nat.lt_succ_of_lt hblt))]
      rw [Heap.get_alloc_ne (h.alloc (.node es)).1 _ b
        (Nat.ne_of_lt (Nat.lt_succ_of_lt hblt))]
      exact Heap.get_alloc_ne h _ b (Nat.ne_of_lt hblt)
    rw [(read_le_agree (g + 1)).1 h _ m ho hagreeM]
    exact hread

theorem apply_noop_deep_equal_witness :
    (applyH 2 defaultHooksH ⟨[(0, .leaf 5), (1, .node [("x", 0)])], 2⟩ 1).2 ≠ 1 ∧
    readTree 2 (applyH 2 defaultHooksH
        ⟨[(0, .leaf 5), (1, .node [("x", 0)])], 2⟩ 1).1
      (applyH 2 defaultHooksH
        ⟨[(0, .leaf 5), (1, .node [("x", 0)])], 2⟩ 1).2 =
      some (.node [("x", .leaf 5)]) ∧
    readTree 2 (applyH 2 defaultHooksH
        ⟨[(0, .leaf 5), (1, .node [("x", 0)])], 2⟩ 1).1 1 =
      some (.node [("x", .leaf 5)]) :=
  apply_noop_deep_equal 1 ⟨[(0, .leaf 5), (1, .node [("x", 0)])], 2⟩ 1
    [("x", .leaf 5)] (by decide) (by decide) (by decide)
    (by simp [readTree, readEntries, Heap.get, hGet])

/-- C1: context resolution for raw data merges the four sources with
precedence lowest to highest — the entity type's static declared default (the
`context_base or default` slot, with no explicit base), the ancestor-supplied
context (the `_context` key, which `context_get_data` injects into every
sub-tree's raw data, third conjunct), the context embedded transiently in the
raw data (its `context` key), and the caller's explicit context — later
sources overriding earlier ones per key and non-colliding keys retained
(first conjunct characterizes every lookup); on the spec's concrete instance
the result is `{a: 2, b: 3, c: 4}` (second conjunct). -/
theorem context_precedence :
    (∀ (clsDefault a e x : Ctx) (m : List (String × PyVal)) (k : String),
      dGet m "_context" = some (.pdict a) →
      dGet m "context" = some (.pdict e) →
      dGet (contextStore_get clsDefault (.pdict m) (some x) none) k =
        match dGet x k with
        | some v => some v
        | none =>
          match dGet e k with
          | some v => some v
          | none =>
            match dGet a k with
            | some v => some v
            | none => dGet clsDefault k) ∧
    contextStore_get [("a", .pint 1)]
      (.pdict [("_context", .pdict [("a", .pint 2), ("b", .pint 2)]),
        ("context", .pdict [("b", .pint 3), ("c", .pint 3)])])
      (some [("c", .pint 4)]) none =
      [("a", .pint 2), ("b", .pint 3), ("c", .pint 4)] ∧
    (∀ (clsDefault : Ctx) (data : List (String × PyVal))
        (tree : List (String × CtxTreeNode)) (context : Ctx),
      dGet (context_get_data clsDefault data tree context) "_context" =
        some (.pdict context)) := by
  refine ⟨?_, rfl, ?_⟩
  · intro clsDefault a e x m k ha he
    have h1 : getCtx m "_context" = a := by
      unfold getCtx
      rw [ha]
    have h2 : getCtx m "context" = e := by
      unfold getCtx
      rw [he]
    show dGet (dunion (dunion (dunion (pyOrCtx none clsDefault)
        (getCtx m "_context")) (getCtx m "context")) x) k = _
    rw [h1, h2]
    rw [dGet_dunion_or, dGet_dunion_or, dGet_dunion_or]
    have h3 : pyOrCtx none clsDefault = clsDefault := rfl
    rw [h3]
    cases dGet x k with
    | some v => rfl
    | none =>
      cases dGet e k with
      | some v => rfl
      | none =>
        cases dGet a k with
        | some v => rfl
        | none => rfl
  · intro clsDefault data tree context
    rw [context_get_data]
    exact dGet_dSet_self _ _ _

theorem context_precedence_witness :
    dGet (contextStore_get [("a", .pint 1)]
      (.pdict [("_context", .pdict [("a", .pint 2), ("b", .pint 2)]),
        ("context", .pdict [("b", .pint 3), ("c", .pint 3)])])
      (some [("c", .pint 4)]) none) "b" =
      match dGet [("c", .pint 4)] "b" with
      | some v => some v
      | none =>
        match dGet [("b", .pint 3), ("c", .pint 3)] "b" with
        | some v => some v
        | none =>
          match dGet [("a", .pint 2), ("b", .pint 2)] "b" with
          | some v => some v
          | none => dGet [("a", .pint 1)] "b" :=
  context_precedence.1 [("a", .pint 1)] [("a", .pint 2), ("b", .pint 2)]
    [("b", .pint 3), ("c", .pint 3)] [("c", .pint 4)]
    [("_context", .pdict [("a", .pint 2), ("b", .pint 2)]),
      ("context", .pdict [("b", .pint 3), ("c", .pint 3)])] "b" rfl rfl

/-- C8 (amended): `ContextBase.context_get` returns the empty context for
every constructed entity, and so does `ContextStore.context_get` for
constructed entities that are not `ContextStore` instances — but a
`ContextStore` instance resolves to its own stored `context` attribute, not
the empty context. -/
theorem context_get_constructed (clsDefault : Ctx) (isStore : Bool)
    (stored : Ctx) (context contextBase : Option Ctx) :
    context_get clsDefault (.model isStore stored) context contextBase = [] ∧
    contextStore_get clsDefault (.model false stored) context contextBase = [] ∧
    contextStore_get clsDefault (.model true stored) context contextBase =
      stored :=
  ⟨rfl, rfl, rfl⟩

/-- C8 counterexample: as stated, the claim is false — a constructed
`ContextStore` entity with a non-empty stored context makes
`ContextStore.context_get` return that stored context, not the empty
context. -/
theorem contextStore_get_nonempty_for_store :
    contextStore_get [] (.model true [("a", .pint 1)]) none none =
      [("a", .pint 1)] ∧
    contextStore_get [] (.model true [("a", .pint 1)]) none none ≠ [] :=
  ⟨rfl, fun hh => List.noConfusion hh⟩

end ContextModels
